import Mathlib

/-!
# Publisher: the publish pipeline of `cszatma/publisher`

A shallow embedding of `main.go` (the pipeline of `main`) and of `git/git.go`
(`Clone`, `Open`), together with the parts of the Go standard library the
pipeline calls (`strings.Split`, `path/filepath` on a Unix target).

Go strings are modelled by `String`; the separators the program splits on
(`"/"` and `" "`) are single bytes, so splitting by character and splitting by
byte agree on every valid UTF-8 string.
-/

namespace Publisher

/-! ## Errors -/

/-- A Go `error` value: a library error carrying a message, one of the two
sentinel values the program can meet (`git.NoErrAlreadyUpToDate` of go-git and
`filepath.ErrBadPattern`), or an error wrapped with a message by
`errors.Wrapf`. A nil error is `none : Option Error`. -/
inductive Error where
  | msg (text : String)
  | NoErrAlreadyUpToDate
  | ErrBadPattern
  | wrap (text : String) (cause : Error)
  deriving DecidableEq, Repr

/-- The `Error()` text of an error value; pkg/errors prints a wrapped error as
its message, a colon and the text of its cause. -/
def Error.text : Error → String
  | .msg t => t
  | .NoErrAlreadyUpToDate => "already up-to-date"
  | .ErrBadPattern => "syntax error in pattern"
  | .wrap t c => t ++ ": " ++ c.text

deriving instance DecidableEq for Except

/-! ## Go standard library: `strings` -/

namespace strings

/-- Pieces of a character list between the occurrences of `sep`: the first
piece and the pieces that follow it. -/
def splitChars (sep : Char) : List Char → List Char × List (List Char)
  | [] => ([], [])
  | c :: cs =>
    if c = sep then ([], (splitChars sep cs).1 :: (splitChars sep cs).2)
    else (c :: (splitChars sep cs).1, (splitChars sep cs).2)

/-- Go `strings.Split(s, sep)` for a one-byte separator: the substrings of `s`
between the occurrences of `sep`; always at least one piece. -/
def Split (s : String) (sep : Char) : List String :=
  String.mk (splitChars sep s.data).1 :: (splitChars sep s.data).2.map String.mk

/-- Go `strings.Join(elems, sep)`. -/
def Join : List String → String → String
  | [], _ => ""
  | [a], _ => a
  | a :: b :: rest, sep => a ++ sep ++ Join (b :: rest) sep

end strings

/-! ## Go standard library: `path/filepath` (Unix) -/

namespace filepath

/-- Whether a path starts with the separator. -/
def isRooted (path : String) : Bool := path.data.head? = some '/'

/-- One element of the scan in `filepath.Clean`; `out` is the output so far,
last element first. An empty element or `.` is skipped; `..` removes the
element before it when there is one that is not itself `..`, is dropped at the
root of a rooted path and is kept otherwise; any other element is appended. -/
def cleanStep (rooted : Bool) (out : List String) (e : String) : List String :=
  if e = "" ∨ e = "." then out
  else if e = ".." then
    match out with
    | [] => if rooted then [] else [".."]
    | top :: rest => if top = ".." then ".." :: top :: rest else rest
  else e :: out

/-- Elements of the cleaned form of `path`, in order. -/
def cleanElems (path : String) : List String :=
  ((strings.Split path '/').foldl (cleanStep (isRooted path)) []).reverse

/-- Go `filepath.Clean`: the shortest path equivalent to `path` by purely
lexical processing; the empty path becomes `"."`. -/
def Clean (path : String) : String :=
  if isRooted path then "/" ++ strings.Join (cleanElems path) "/"
  else if cleanElems path = [] then "."
  else strings.Join (cleanElems path) "/"

/-- Go `filepath.Join`: leading empty elements are ignored, the rest is joined
with the separator and cleaned; the result is empty when every element is. -/
def Join (elem : List String) : String :=
  match elem.dropWhile (fun e => e = "") with
  | [] => ""
  | e :: es => Clean (strings.Join (e :: es) "/")

/-- Go `filepath.Split`: the path up to and including its final separator, and
what follows it. -/
def Split (path : String) : String × String :=
  (String.mk (path.data.reverse.dropWhile (fun c => c ≠ '/')).reverse,
   String.mk (path.data.reverse.takeWhile (fun c => c ≠ '/')).reverse)

/-! ### UTF-8 (`unicode/utf8`)

`filepath.Match` works on the bytes of its arguments: a star skips bytes, a
literal is compared byte by byte, and only `?` and a character class decode a
rune. Bytes and runes are natural numbers. -/

/-- The UTF-8 encoding of a character. -/
def encodeChar (c : Char) : List Nat :=
  if c.toNat < 0x80 then [c.toNat]
  else if c.toNat < 0x800 then [0xC0 + c.toNat / 64, 0x80 + c.toNat % 64]
  else if c.toNat < 0x10000 then
    [0xE0 + c.toNat / 4096, 0x80 + c.toNat / 64 % 64, 0x80 + c.toNat % 64]
  else
    [0xF0 + c.toNat / 262144, 0x80 + c.toNat / 4096 % 64, 0x80 + c.toNat / 64 % 64,
     0x80 + c.toNat % 64]

/-- The bytes of a Go string. -/
def bytes (s : String) : List Nat := (s.data.map encodeChar).flatten

/-- Go `utf8.RuneError`. -/
def RuneError : Nat := 0xFFFD

/-- Go `utf8.DecodeRuneInString`: the first rune of a byte string and its width
in bytes; `(RuneError, 1)` when the encoding is invalid and `(RuneError, 0)`
when the string is empty. -/
def DecodeRune : List Nat → Nat × Nat
  | [] => (RuneError, 0)
  | s0 :: rest =>
    if s0 < 0x80 then (s0, 1)
    else if s0 < 0xC2 then (RuneError, 1)
    else if s0 < 0xE0 then
      match rest with
      | s1 :: _ =>
        if s1 < 0x80 ∨ 0xBF < s1 then (RuneError, 1)
        else (s0 % 32 * 64 + s1 % 64, 2)
      | _ => (RuneError, 1)
    else if s0 < 0xF0 then
      match rest with
      | s1 :: s2 :: _ =>
        if s1 < (if s0 = 0xE0 then 0xA0 else 0x80) ∨ (if s0 = 0xED then 0x9F else 0xBF) < s1 then
          (RuneError, 1)
        else if s2 < 0x80 ∨ 0xBF < s2 then (RuneError, 1)
        else (s0 % 16 * 4096 + s1 % 64 * 64 + s2 % 64, 3)
      | _ => (RuneError, 1)
    else if s0 < 0xF5 then
      match rest with
      | s1 :: s2 :: s3 :: _ =>
        if s1 < (if s0 = 0xF0 then 0x90 else 0x80) ∨ (if s0 = 0xF4 then 0x8F else 0xBF) < s1 then
          (RuneError, 1)
        else if s2 < 0x80 ∨ 0xBF < s2 then (RuneError, 1)
        else if s3 < 0x80 ∨ 0xBF < s3 then (RuneError, 1)
        else (s0 % 8 * 262144 + s1 % 64 * 4096 + s2 % 64 * 64 + s3 % 64, 4)
      | _ => (RuneError, 1)
    else (RuneError, 1)

/-! ### `filepath.Match` (match.go)

The bytes `Match` treats specially: `*` is 42, `?` is 63, `[` is 91, `\` is
92, `]` is 93, `^` is 94, `-` is 45, and the separator `/` is 47. -/

/-- Leading stars of a pattern: whether there is one, and the pattern after them. -/
def skipStars : List Nat → Bool × List Nat
  | [] => (false, [])
  | c :: cs => if c = 42 then (true, (skipStars cs).2) else (false, c :: cs)

/-- The scan loop of `scanChunk`: the chunk up to the next star outside a
character class, and the rest of the pattern. -/
def scanLoop : Bool → List Nat → List Nat × List Nat
  | _, [] => ([], [])
  | inrange, c :: cs =>
    if c = 92 then
      match cs with
      | [] => ([c], [])
      | d :: ds => (c :: d :: (scanLoop inrange ds).1, (scanLoop inrange ds).2)
    else if c = 91 then (c :: (scanLoop true cs).1, (scanLoop true cs).2)
    else if c = 93 then (c :: (scanLoop false cs).1, (scanLoop false cs).2)
    else if c = 42 ∧ inrange = false then ([], c :: cs)
    else (c :: (scanLoop inrange cs).1, (scanLoop inrange cs).2)

/-- Go `scanChunk`: the next segment of the pattern, a star-free chunk possibly
preceded by stars: (star, chunk, rest). -/
def scanChunk (pattern : List Nat) : Bool × List Nat × List Nat :=
  ((skipStars pattern).1, scanLoop false (skipStars pattern).2)

/-- Go `getEsc`: one possibly escaped rune of a character class and what
follows it, which must not be empty. -/
def getEsc : List Nat → Except Error (Nat × List Nat)
  | [] => .error .ErrBadPattern
  | c :: cs =>
    if c = 45 ∨ c = 93 then .error .ErrBadPattern
    else if c = 92 ∧ cs = [] then .error .ErrBadPattern
    else if (DecodeRune (if c = 92 then cs else c :: cs)).1 = RuneError
        ∧ (DecodeRune (if c = 92 then cs else c :: cs)).2 = 1 then .error .ErrBadPattern
    else if (if c = 92 then cs else c :: cs).drop
        (DecodeRune (if c = 92 then cs else c :: cs)).2 = [] then .error .ErrBadPattern
    else
      .ok ((DecodeRune (if c = 92 then cs else c :: cs)).1,
        (if c = 92 then cs else c :: cs).drop (DecodeRune (if c = 92 then cs else c :: cs)).2)

/-- The range loop of a character class in `matchChunk`: whether the rune `r`
lies in one of the ranges, and the chunk after the closing bracket. Every
round consumes some of the chunk; the first argument bounds the rounds. -/
def classLoop (r : Nat) : Nat → Nat → Bool → List Nat → Except Error (Bool × List Nat)
  | 0, _, _, _ => .error .ErrBadPattern
  | fuel + 1, nrange, found, chunk =>
    if chunk.head? = some 93 ∧ 0 < nrange then .ok (found, chunk.tail)
    else
      match getEsc chunk with
      | .error e => .error e
      | .ok (lo, chunk1) =>
        if chunk1.head? = some 45 then
          match getEsc chunk1.tail with
          | .error e => .error e
          | .ok (hi, chunk2) =>
            classLoop r fuel (nrange + 1) (found || (decide (lo ≤ r) && decide (r ≤ hi))) chunk2
        else classLoop r fuel (nrange + 1) (found || decide (lo = r)) chunk1

/-- The loop of Go `matchChunk`; `failed` records that the match has failed,
after which the chunk is only checked for being well formed. Every round
consumes some of the chunk; the first argument bounds the rounds. -/
def chunkLoop : Nat → Bool → List Nat → List Nat → Except Error (Option (List Nat))
  | 0, _, _, _ => .error .ErrBadPattern
  | _ + 1, failed, [], s => .ok (if failed then none else some s)
  | fuel + 1, failed0, c :: chunk, s =>
    let failed := failed0 || s.isEmpty
    if c = 91 then
      let r := if failed then 0 else (DecodeRune s).1
      let s1 := if failed then s else s.drop (DecodeRune s).2
      let negated := decide (chunk.head? = some 94)
      let chunk1 := if negated then chunk.tail else chunk
      match classLoop r (chunk1.length + 1) 0 false chunk1 with
      | .error e => .error e
      | .ok (found, chunk2) => chunkLoop fuel (failed || (found == negated)) chunk2 s1
    else if c = 63 then
      chunkLoop fuel (failed || decide (s.head? = some 47)) chunk
        (if failed then s else s.drop (DecodeRune s).2)
    else if c = 92 then
      match chunk with
      | [] => .error .ErrBadPattern
      | d :: chunk1 =>
        chunkLoop fuel (failed || decide (s.head? ≠ some d)) chunk1 (if failed then s else s.tail)
    else
      chunkLoop fuel (failed || decide (s.head? ≠ some c)) chunk (if failed then s else s.tail)

/-- Go `matchChunk`: whether the chunk matches the beginning of `s`, and then
the remainder of `s`. -/
def matchChunk (chunk s : List Nat) : Except Error (Option (List Nat)) :=
  chunkLoop (chunk.length + 1) false chunk s

/-- The loop of `Match` that lets a star skip bytes of the name, never a
separator. -/
def starLoop (chunk : List Nat) (last : Bool) : List Nat → Except Error (Option (List Nat))
  | [] => .ok none
  | c :: rest =>
    if c = 47 then .ok none
    else
      match matchChunk chunk rest with
      | .error e => .error e
      | .ok (some t) => if last ∧ t ≠ [] then starLoop chunk last rest else .ok (some t)
      | .ok none => starLoop chunk last rest

/-- The main loop of Go `filepath.Match`; a mismatch is reported without
looking at the rest of the pattern. Every round consumes some of the pattern;
the first argument bounds the rounds. -/
def matchLoop : Nat → List Nat → List Nat → Except Error Bool
  | 0, _, _ => .error .ErrBadPattern
  | _ + 1, [], name => .ok name.isEmpty
  | fuel + 1, c :: cs, name =>
    let star := (scanChunk (c :: cs)).1
    let chunk := (scanChunk (c :: cs)).2.1
    let rest := (scanChunk (c :: cs)).2.2
    if star ∧ chunk = [] then .ok (!name.contains 47)
    else
      match matchChunk chunk name with
      | .error e => .error e
      | .ok (some t) =>
        if t = [] ∨ rest ≠ [] then matchLoop fuel rest t
        else if star then
          match starLoop chunk (decide (rest = [])) name with
          | .error e => .error e
          | .ok (some t1) => matchLoop fuel rest t1
          | .ok none => .ok false
        else .ok false
      | .ok none =>
        if star then
          match starLoop chunk (decide (rest = [])) name with
          | .error e => .error e
          | .ok (some t1) => matchLoop fuel rest t1
          | .ok none => .ok false
        else .ok false

/-- Go `filepath.Match(pattern, name)`: whether `name` matches the shell file
name pattern, or `ErrBadPattern`. -/
def Match (pattern name : String) : Except Error Bool :=
  matchLoop ((bytes pattern).length + 1) (bytes pattern) (bytes name)

/-! ### `filepath.Glob` (match.go) -/

/-- What `Glob` reads of the file system: whether `os.Lstat` finds the path,
whether `os.Stat` finds a directory there, and the names in a directory (none
when it cannot be read). -/
structure FS where
  Lstat : String → Bool
  IsDir : String → Bool
  Readdirnames : String → List String

/-- Go `hasMeta`: whether the path holds one of the characters `Match`
treats specially. -/
def hasMeta (path : String) : Bool :=
  path.data.any (fun c => c = '*' ∨ c = '?' ∨ c = '[' ∨ c = '\\')

/-- Go `cleanGlobPath`: the directory part of a pattern, ready for globbing. -/
def cleanGlobPath (path : String) : String :=
  if path = "" then "."
  else if path = "/" then path
  else String.mk path.data.dropLast

/-- The loop of Go `glob` over the sorted names of a directory. -/
def globNames (dir pattern : String) : List String → List String → Except Error (List String)
  | [], m => .ok m
  | n :: ns, m =>
    match Match pattern n with
    | .error e => .error e
    | .ok true => globNames dir pattern ns (m ++ [Join [dir, n]])
    | .ok false => globNames dir pattern ns m

/-- Go `glob`: the files of `dir` matching `pattern`, sorted by name
(`sort.Strings`) and appended to `matches`; I/O errors are ignored. -/
def glob (fs : FS) (dir pattern : String) (matches_ : List String) : Except Error (List String) :=
  if fs.IsDir dir then
    globNames dir pattern ((fs.Readdirnames dir).insertionSort (fun a b => a.data ≤ b.data))
      matches_
  else .ok matches_

/-- The loop of `Glob` over the matches of the directory part. -/
def globDirs (fs : FS) (file : String) : List String → List String → Except Error (List String)
  | [], m => .ok m
  | d :: ds, m =>
    match glob fs d file m with
    | .error e => .error e
    | .ok m1 => globDirs fs file ds m1

/-- Go `filepath.Glob`; each call works on a strictly shorter pattern, which
the first argument bounds (Go bounds the depth by 10000 as well, which a
pattern of fewer separators never reaches). -/
def globLoop (fs : FS) : Nat → String → Except Error (List String)
  | 0, _ => .error .ErrBadPattern
  | fuel + 1, pattern =>
    match Match pattern "" with
    | .error e => .error e
    | .ok _ =>
      if hasMeta pattern = false then
        (if fs.Lstat pattern then .ok [pattern] else .ok [])
      else if hasMeta (cleanGlobPath (Split pattern).1) = false then
        glob fs (cleanGlobPath (Split pattern).1) (Split pattern).2 []
      else if cleanGlobPath (Split pattern).1 = pattern then .error .ErrBadPattern
      else
        match globLoop fs fuel (cleanGlobPath (Split pattern).1) with
        | .error e => .error e
        | .ok m => globDirs fs (Split pattern).2 m []

/-- Go `filepath.Glob(pattern)`: the names of all files matching `pattern`, or
`ErrBadPattern`. -/
def Glob (fs : FS) (pattern : String) : Except Error (List String) :=
  globLoop fs (pattern.length + 1) pattern

end filepath

/-! ## The outside world

Everything the program does to the file system, to go-git and to other
processes is a call that may fail and may change the state of the world. The
world is a parameter: a state type `σ` with the result of every call. A run
records each call with the error it returned. -/

/-- An entry of a directory listing (`os.FileInfo`: `Name()`, `IsDir()`). -/
structure FileInfo where
  Name : String
  IsDir : Bool
  deriving DecidableEq, Repr

/-- What is found at a path: nothing, something without content, or something
with content. -/
inductive PathState where
  | missing
  | empty
  | populated
  deriving DecidableEq, Repr

/-- The go-git `CloneOptions` the program sets. -/
structure CloneOptions where
  URL : String
  ReferenceName : String
  SingleBranch : Bool
  deriving DecidableEq, Repr

/-- The go-git `CleanOptions`. -/
structure CleanOptions where
  Dir : Bool
  deriving DecidableEq, Repr

/-- The go-git `CheckoutOptions` the program sets. -/
structure CheckoutOptions where
  Branch : String
  Force : Bool
  deriving DecidableEq, Repr

/-- The go-git `PullOptions` the program sets. -/
structure PullOptions where
  SingleBranch : Bool
  Force : Bool
  deriving DecidableEq, Repr

/-- A `*git.Repository`: the handle of the repository at a local path. -/
structure Repository where
  path : String
  deriving DecidableEq, Repr

/-- The calls the program makes to the outside: those of go-git (`PlainClone`,
`PlainOpen`, `Worktree`, `Clean`, `Checkout`, `Pull`), of the Go standard
library (`ReadDir`, `RemoveAll`, `Glob`, `WriteFile`) and of the packages
`util` and `git` of the repository (`Exec`, `Copy`, `Add`, `Commit`, `Push`).
`Exec name dir args` is `util.Exec(name, dir, args...)`, which runs the command
`name` with the arguments `args` in the working directory `dir`. -/
inductive Action where
  | PlainClone (path : String) (isBare : Bool) (o : CloneOptions)
  | PlainOpen (path : String)
  | Worktree (path : String)
  | Clean (path : String) (o : CleanOptions)
  | Checkout (path : String) (o : CheckoutOptions)
  | Pull (path : String) (o : PullOptions)
  | ReadDir (dirname : String)
  | RemoveAll (path : String)
  | Exec (name dir : String) (args : List String)
  | Glob (pattern : String)
  | Copy (src dst : String)
  | WriteFile (filename data : String) (perm : Nat)
  | Add (name path pathSpec : String)
  | Commit (name message : String) (repo : Repository)
  | Push (name : String) (repo : Repository)
  deriving DecidableEq, Repr

/-- The world the program runs in. `perform` is the outcome of a call that
returns only an error: the error (none for nil) and the state after the call.
The other fields are what the program reads: the listing of a directory, the
file system as `filepath.Glob` sees it, and what is found at a path. -/
structure World (σ : Type) where
  perform : σ → Action → Option Error × σ
  readDir : σ → String → Except Error (List FileInfo)
  fs : σ → filepath.FS
  pathState : σ → String → PathState

/-- A call as a run records it: the call and the error it returned. -/
structure Event where
  action : Action
  err : Option Error
  deriving DecidableEq, Repr

/-- What a run leaves: its result, the state of the world and the calls made,
in order. -/
structure Run (σ α : Type) where
  result : Except Error α
  state : σ
  trace : List Event

/-- A piece of the program: a run from every state. -/
def Prog (σ α : Type) : Type := σ → Run σ α

namespace Prog

variable {σ α β : Type}

/-- Return a value without doing anything. -/
def pure (a : α) : Prog σ α := fun s => ⟨.ok a, s, []⟩

/-- Stop with an error; nothing that follows is run. -/
def fail (e : Error) : Prog σ α := fun s => ⟨.error e, s, []⟩

/-- Run `p` and hand its result, value or error, to what follows: a Go
function returning `(value, error)`. -/
def try_ (p : Prog σ α) : Prog σ (Except Error α) := fun s =>
  ⟨.ok (p s).result, (p s).state, (p s).trace⟩

/-- Run `p`, then, unless it stopped with an error, what follows it. -/
def bind (p : Prog σ α) (f : α → Prog σ β) : Prog σ β := fun s =>
  match (p s).result with
  | .error e => ⟨.error e, (p s).state, (p s).trace⟩
  | .ok a =>
    ⟨(f a (p s).state).result, (f a (p s).state).state,
     (p s).trace ++ (f a (p s).state).trace⟩

end Prog

namespace World

variable {σ : Type}

/-- A call that returns only an error. -/
def call (w : World σ) (a : Action) : Prog σ (Option Error) := fun s =>
  ⟨.ok (w.perform s a).1, (w.perform s a).2, [⟨a, (w.perform s a).1⟩]⟩

/-- A call to `ioutil.ReadDir(dirname)`. -/
def ReadDir (w : World σ) (dirname : String) : Prog σ (Except Error (List FileInfo)) := fun s =>
  ⟨.ok (w.readDir s dirname), s,
   [⟨.ReadDir dirname, match w.readDir s dirname with | .error e => some e | .ok _ => none⟩]⟩

/-- A call to `filepath.Glob(pattern)`. -/
def Glob (w : World σ) (pattern : String) : Prog σ (Except Error (List String)) := fun s =>
  ⟨.ok (filepath.Glob (w.fs s) pattern), s,
   [⟨.Glob pattern,
     match filepath.Glob (w.fs s) pattern with | .error e => some e | .ok _ => none⟩]⟩

/-- What `util.FileOrDirExists(path)` looks at: what is found at the path.
Looking changes nothing and is not recorded. -/
def pathStateOf (w : World σ) (path : String) : Prog σ PathState := fun s =>
  ⟨.ok (w.pathState s path), s, []⟩

end World

/-! ## Packages that are not among the sources -/

namespace errors

/-- The `errors.Wrapf(err, format, args...)` of pkg/errors on a non-nil error:
the error annotated with the formatted message. -/
def Wrapf (err : Error) (message : String) : Error := .wrap message err

end errors

namespace fatal

/-- Modelled from the spec: package `fatal` (`ExitErr`, `ExitErrf`) is not among
the sources. Every failure is fatal to the current invocation: the error is
reported with the message and all remaining steps are aborted. -/
def ExitErr {σ α : Type} (err : Error) (message : String) : Prog σ α :=
  Prog.fail (.wrap message err)

end fatal

namespace util

/-- Modelled from the spec: `util.FileOrDirExists` is not among the sources. The
clone path is taken if and only if the target path does not exist or exists
but is empty, and `main` clones exactly when this function reports false: it
reports true exactly for a path that exists and is not empty. -/
def FileOrDirExists (st : PathState) : Bool :=
  match st with
  | .missing => false
  | .empty => false
  | .populated => true

end util

/-! ## Package `git` (git/git.go) -/

namespace git

variable {σ : Type}

/-- The `git.Clone(name, branch, path)` of git.go: a single-branch clone of
`git@github.com:<name>.git` at `refs/heads/<branch>` into `path`. -/
def Clone (w : World σ) (name branch path : String) : Prog σ Repository :=
  (w.call (.PlainClone path false
    ⟨"git@github.com:" ++ name ++ ".git", "refs/heads/" ++ branch, true⟩)).bind fun err =>
  match err with
  | some e => Prog.fail (errors.Wrapf e ("failed to clone " ++ name ++ " to " ++ path))
  | none => Prog.pure ⟨path⟩

/-- The `git.Open(name, branch, path)` of git.go: open the repository, take
its worktree, clean it, check the branch out and pull. -/
def Open (w : World σ) (name branch path : String) : Prog σ Repository :=
  (w.call (.PlainOpen path)).bind fun err =>
  match err with
  | some e => Prog.fail (errors.Wrapf e ("failed to open repo at path " ++ path))
  | none =>
  (w.call (.Worktree path)).bind fun err =>
  match err with
  | some e => Prog.fail (errors.Wrapf e ("failed to get worktree for repo " ++ name))
  | none =>
  (w.call (.Clean path ⟨true⟩)).bind fun err =>
  match err with
  | some e => Prog.fail (errors.Wrapf e ("failed to clean repo " ++ name))
  | none =>
  (w.call (.Checkout path ⟨"refs/heads/" ++ branch, true⟩)).bind fun err =>
  match err with
  | some e =>
    Prog.fail (errors.Wrapf e ("failed to checkout branch " ++ branch ++ " in repo " ++ name))
  | none =>
  (w.call (.Pull path ⟨true, true⟩)).bind fun err =>
  match err with
  | some e =>
    if e ≠ Error.NoErrAlreadyUpToDate then
      Prog.fail (errors.Wrapf e ("failed to pull changes from remote for repo " ++ name))
    else Prog.pure ⟨path⟩
  | none => Prog.pure ⟨path⟩

end git

/-! ## Program `main` (main.go, lines 84 to 193)

`main` first parses the flags, asks git for the root directory and the HEAD of
the source repository and reads the configuration; what follows is given the
results: the directory of the local repositories (`config.ReposDir()`), the
source root, the `--skip-prerun` flag, the configuration and the target.
Logging and the progress lines on standard output are left out. The functions
`util.Exec`, `util.Copy`, `git.Add`, `git.Commit` and `git.Push` are not among
the sources: they are calls to the outside. -/

/-- A target of the configuration (`config.Target`), as far as `main` reads it. -/
structure Target where
  GithubRepo : String
  Branch : String
  CustomURL : String
  deriving DecidableEq, Repr

/-- The configuration (`config.Config`), as far as `main` reads it. -/
structure Config where
  Files : List String
  PreRunScript : String
  CommitMessage : String
  deriving DecidableEq, Repr

section Main

variable {σ : Type}

/-- Setup target repo (lines 84 to 105): clone when `util.FileOrDirExists`
reports false for the path, open otherwise. -/
def setupTargetRepo (w : World σ) (target : Target) (targetRepoPath : String) :
    Prog σ Repository :=
  (w.pathStateOf targetRepoPath).bind fun st =>
  if util.FileOrDirExists st = false then
    (git.Clone w target.GithubRepo target.Branch targetRepoPath).try_.bind fun r =>
    match r with
    | .error err =>
      fatal.ExitErr err
        ("Failed to clone repo " ++ target.GithubRepo ++ " to " ++ targetRepoPath)
    | .ok repo => Prog.pure repo
  else
    (git.Open w target.GithubRepo target.Branch targetRepoPath).try_.bind fun r =>
    match r with
    | .error err =>
      fatal.ExitErr err
        ("Failed to open repo " ++ target.GithubRepo ++ " at path " ++ targetRepoPath)
    | .ok repo => Prog.pure repo

/-- The loop of lines 114 to 124 over the listing of the target directory. -/
def removeItems (w : World σ) (targetRepoPath : String) : List FileInfo → Prog σ Unit
  | [] => Prog.pure ()
  | f :: dir =>
    if f.Name = ".git" ∧ f.IsDir = true then removeItems w targetRepoPath dir
    else
      (w.call (.RemoveAll (filepath.Join [targetRepoPath, f.Name]))).bind fun err =>
      match err with
      | some e => fatal.ExitErr e ("failed to remove " ++ f.Name)
      | none => removeItems w targetRepoPath dir

/-- Empty target repo (lines 107 to 124). -/
def emptyTargetRepo (w : World σ) (targetRepoPath : String) : Prog σ Unit :=
  (w.ReadDir targetRepoPath).bind fun r =>
  match r with
  | .error err => fatal.ExitErr err "failed to read items in target dir"
  | .ok dir => removeItems w targetRepoPath dir

/-- The preRun script (lines 126 to 133). Indexing `args[0]` panics on an empty
slice, which `strings.Split` never returns. -/
def preRun (w : World σ) (skipPreRun : Bool) (conf : Config) (srcRootPath : String) :
    Prog σ Unit :=
  if skipPreRun = false ∧ conf.PreRunScript ≠ "" then
    match strings.Split conf.PreRunScript ' ' with
    | [] => Prog.fail (.msg "index out of range")
    | name :: args =>
      (w.call (.Exec name srcRootPath args)).bind fun err =>
      match err with
      | some e => fatal.ExitErr e "Failed to execute preRun script"
      | none => Prog.pure ()
  else Prog.pure ()

/-- The loop of lines 138 to 145: the matches of every configured pattern, in
order. -/
def globFiles (w : World σ) : List String → List String → Prog σ (List String)
  | [], files => Prog.pure files
  | file :: rest, files =>
    (w.Glob file).bind fun r =>
    match r with
    | .error err => fatal.ExitErr err "failed to parse files listed in config"
    | .ok found => globFiles w rest (files ++ found)

/-- The `destFile` of lines 151 to 157: a matched path of one component is kept,
any other loses its first component. -/
def destFile (file : String) : String :=
  if (strings.Split file '/').length = 1 then file
  else filepath.Join ((strings.Split file '/').drop 1)

/-- The `destPath` of line 159. -/
def destPath (targetRepoPath file : String) : String :=
  filepath.Join [targetRepoPath, destFile file]

/-- The loop of lines 147 to 164 over the matched files. -/
def copyFiles (w : World σ) (srcRootPath targetRepoPath : String) : List String → Prog σ Unit
  | [] => Prog.pure ()
  | file :: rest =>
    (w.call (.Copy (filepath.Join [srcRootPath, file]) (destPath targetRepoPath file))).bind
      fun err =>
    match err with
    | some e =>
      fatal.ExitErr e ("failed to copy " ++ filepath.Join [srcRootPath, file] ++ " to "
        ++ destPath targetRepoPath file)
    | none => copyFiles w srcRootPath targetRepoPath rest

/-- The CNAME file (lines 166 to 172). -/
def writeCNAME (w : World σ) (target : Target) (targetRepoPath : String) : Prog σ Unit :=
  if target.CustomURL ≠ "" then
    (w.call (.WriteFile (filepath.Join [targetRepoPath, "CNAME"]) target.CustomURL 0o644)).bind
      fun err =>
    match err with
    | some e =>
      fatal.ExitErr e ("Failed to write CNAME file to target repo " ++ targetRepoPath)
    | none => Prog.pure ()
  else Prog.pure ()

/-- Commit files (lines 174 to 191): stage, commit, push. -/
def commitFiles (w : World σ) (conf : Config) (target : Target) (targetRepoPath : String)
    (repo : Repository) : Prog σ Unit :=
  (w.call (.Add target.GithubRepo targetRepoPath ".")).bind fun err =>
  match err with
  | some e => fatal.ExitErr e ("Failed to stage files in target repo " ++ targetRepoPath)
  | none =>
  (w.call (.Commit target.GithubRepo conf.CommitMessage repo)).bind fun err =>
  match err with
  | some e => fatal.ExitErr e ("Failed to commit files in target repo " ++ targetRepoPath)
  | none =>
  (w.call (.Push target.GithubRepo repo)).bind fun err =>
  match err with
  | some e =>
    fatal.ExitErr e ("Failed to push changes to GitHub for target repo " ++ targetRepoPath)
  | none => Prog.pure ()

/-- Copy files, the CNAME file and commit files (lines 135 to 191): what
follows the preRun script. -/
def publishFiles (w : World σ) (srcRootPath targetRepoPath : String) (conf : Config)
    (target : Target) (repo : Repository) : Prog σ Unit :=
  (globFiles w conf.Files []).bind fun files =>
  (copyFiles w srcRootPath targetRepoPath files).bind fun _ =>
  (writeCNAME w target targetRepoPath).bind fun _ =>
  commitFiles w conf target targetRepoPath repo

/-- The pipeline of `main` from line 84 on. -/
def main (w : World σ) (reposDir srcRootPath : String) (skipPreRun : Bool) (conf : Config)
    (target : Target) : Prog σ Unit :=
  (setupTargetRepo w target (filepath.Join [reposDir, target.GithubRepo])).bind fun repo =>
  (emptyTargetRepo w (filepath.Join [reposDir, target.GithubRepo])).bind fun _ =>
  (preRun w skipPreRun conf srcRootPath).bind fun _ =>
  publishFiles w srcRootPath (filepath.Join [reposDir, target.GithubRepo]) conf target repo

end Main

/-! ## Definitions the statements use -/

/-- Whether the program treats the outcome of a call as a failure: any error,
except `git.NoErrAlreadyUpToDate` returned by a pull. -/
def Event.failed (e : Event) : Bool :=
  match e.err, e.action with
  | none, _ => false
  | some err, .Pull _ _ => decide (err ≠ Error.NoErrAlreadyUpToDate)
  | some _, _ => true

namespace git

/-- The calls of the open path, in the order the spec gives them: open (the
repository and its worktree), clean including directories, forced checkout of
the branch, forced single-branch pull. -/
def openCalls (branch path : String) : List Action :=
  [.PlainOpen path, .Worktree path, .Clean path ⟨true⟩,
   .Checkout path ⟨"refs/heads/" ++ branch, true⟩, .Pull path ⟨true, true⟩]

/-- The message `Open` wraps the error of each of its calls with. -/
def openMessages (name branch path : String) : List String :=
  ["failed to open repo at path " ++ path,
   "failed to get worktree for repo " ++ name,
   "failed to clean repo " ++ name,
   "failed to checkout branch " ++ branch ++ " in repo " ++ name,
   "failed to pull changes from remote for repo " ++ name]

/-- The word that names each step in its message. -/
def openStepWords : List String := ["open", "worktree", "clean", "checkout", "pull"]

end git

/-- Whether an element of a path names a step along it: an empty element and
`.` do not. -/
def isName (e : String) : Bool := decide (e ≠ "" ∧ e ≠ ".")

/-- The names along a path: its elements between separators, without the
empty ones and `.`. -/
def pathElems (p : String) : List String := (strings.Split p '/').filter isName

/-- The components of a matched path that its destination keeps: the only one,
or all after the first. -/
def keptComponents (file : String) : List String :=
  if (strings.Split file '/').length = 1 then strings.Split file '/'
  else (strings.Split file '/').drop 1

/-- The destination the spec derives from the original pattern: for a pattern
of one component the file name of the match, otherwise the matched path with
its first component removed. -/
def specDestFile (pattern file : String) : String :=
  if (strings.Split pattern '/').length = 1 then (filepath.Split file).2
  else strings.Join ((strings.Split file '/').drop 1) "/"

/-- The destination path the spec derives: `specDestFile` under the
working-copy root. -/
def specDestPath (targetRepoPath pattern file : String) : String :=
  filepath.Join [targetRepoPath, specDestFile pattern file]

/-- A source tree as `filepath.Glob` sees it from the source root: the
directories `.git`, `dist` and `dist/css`, the files `.git/HEAD`, `README.md`,
`dist/index.html` and `dist/css/app.css`, and a file `notes.txt` two
directories above the source root. -/
def sourceTree : filepath.FS where
  Lstat := fun p =>
    decide (p ∈ [".", ".git", ".git/HEAD", "README.md", "dist", "dist/index.html", "dist/css",
      "dist/css/app.css", "./README.md", "../../notes.txt"])
  IsDir := fun p => decide (p ∈ [".", ".git", "dist", "dist/css"])
  Readdirnames := fun p =>
    if p = "." then ["dist", "README.md", ".git"]
    else if p = "dist" then ["index.html", "css"]
    else if p = "dist/css" then ["app.css"]
    else if p = ".git" then ["HEAD"]
    else []

/-- A world with one state in which no call fails and the source tree is
`sourceTree`. -/
def sourceWorld : World Unit where
  perform := fun _ _ => (none, ())
  readDir := fun _ _ => .ok [⟨".git", true⟩, ⟨"old.html", false⟩]
  fs := fun _ => sourceTree
  pathState := fun _ _ => .populated

/-- Whether a character is white space (the ASCII white space of Go
`unicode.IsSpace`). -/
def isSpace (c : Char) : Bool :=
  c = ' ' ∨ c = '\t' ∨ c = '\n' ∨ c = '\x0b' ∨ c = '\x0c' ∨ c = '\r'

/-- Pieces of a character list between white space characters: the first piece
and the pieces that follow it. -/
def fieldsChars : List Char → List Char × List (List Char)
  | [] => ([], [])
  | c :: cs =>
    if isSpace c = true then ([], (fieldsChars cs).1 :: (fieldsChars cs).2)
    else (c :: (fieldsChars cs).1, (fieldsChars cs).2)

/-- The words of a command as the spec splits it: the pieces between white
space, none of them empty. -/
def specFields (s : String) : List String :=
  (((fieldsChars s.data).1 :: (fieldsChars s.data).2).filter (fun p => p ≠ [])).map String.mk

/-- Whether a directory entry is the version-control metadata directory. -/
def isGitDir (f : FileInfo) : Bool := decide (f.Name = ".git" ∧ f.IsDir = true)

/-- A world whose state is the listing of the directory `root`. Removing a
path removes the entries found at that path, unless `failing` has an error for
the path, and nothing else changes the listing. -/
def dirWorld (root : String) (failing : String → Option Error) : World (List FileInfo) where
  perform := fun dir a =>
    match a with
    | .RemoveAll p =>
      match failing p with
      | some e => (some e, dir)
      | none => (none, dir.filter (fun f => decide (filepath.Join [root, f.Name] ≠ p)))
    | _ => (none, dir)
  readDir := fun dir p => if p = root then .ok dir else .error (.msg "no such file or directory")
  fs := fun _ => ⟨fun _ => false, fun _ => false, fun _ => []⟩
  pathState := fun _ _ => .populated

/-- The steps of the pipeline. -/
inductive Step where
  | PREPARE
  | EMPTY
  | PRE_RUN
  | STAGE_FILES
  | WRITE_METADATA
  | VCS_ADD
  | VCS_COMMIT
  | VCS_PUSH
  deriving DecidableEq, Repr

/-- The place of a step in the fixed order PREPARE, EMPTY, PRE_RUN,
STAGE_FILES, WRITE_METADATA, VCS_ADD, VCS_COMMIT, VCS_PUSH. -/
def Step.index : Step → Nat
  | .PREPARE => 0
  | .EMPTY => 1
  | .PRE_RUN => 2
  | .STAGE_FILES => 3
  | .WRITE_METADATA => 4
  | .VCS_ADD => 5
  | .VCS_COMMIT => 6
  | .VCS_PUSH => 7

/-- The step of the pipeline a call belongs to. -/
def Action.step : Action → Step
  | .PlainClone _ _ _ => .PREPARE
  | .PlainOpen _ => .PREPARE
  | .Worktree _ => .PREPARE
  | .Clean _ _ => .PREPARE
  | .Checkout _ _ => .PREPARE
  | .Pull _ _ => .PREPARE
  | .ReadDir _ => .EMPTY
  | .RemoveAll _ => .EMPTY
  | .Exec _ _ _ => .PRE_RUN
  | .Glob _ => .STAGE_FILES
  | .Copy _ _ => .STAGE_FILES
  | .WriteFile _ _ _ => .WRITE_METADATA
  | .Add _ _ _ => .VCS_ADD
  | .Commit _ _ _ => .VCS_COMMIT
  | .Push _ _ => .VCS_PUSH

/-- The place in the fixed order of the step a recorded call belongs to. -/
def Event.index (ev : Event) : Nat := ev.action.step.index

/-- A run stops at its first failed call: either it succeeds and no call
failed, or it fails and the failed call is its last. -/
def Run.stopsAtFailure {σ α : Type} (r : Run σ α) : Prop :=
  (∃ a, r.result = .ok a ∧ ∀ ev ∈ r.trace, ev.failed = false) ∨
  (∃ e pre last, r.result = .error e ∧ r.trace = pre ++ [last] ∧
    (∀ ev ∈ pre, ev.failed = false) ∧ last.failed = true)

/-- A run is orderly between two places of the fixed order: it stops at its
first failed call, its calls follow the order of the steps, and their steps
lie between the two places. -/
def Run.orderly {σ α : Type} (lo hi : Nat) (r : Run σ α) : Prop :=
  r.stopsAtFailure ∧ (r.trace.map Event.index).Pairwise (fun a b => a ≤ b) ∧
  ∀ ev ∈ r.trace, lo ≤ ev.index ∧ ev.index ≤ hi

/-- How a run of the pipeline ends: after calls of the steps before VCS_ADD,
either it has failed there, or none of those calls failed and the run goes on
with the staging call, then, if that succeeded, the commit call, then, if that
succeeded, the push call, and succeeds exactly when the push does. -/
def Run.endsWithCommit {σ : Type} (conf : Config) (target : Target) (root : String)
    (r : Run σ Unit) : Prop :=
  ∃ pre : List Event, (∀ ev ∈ pre, ev.index < 5) ∧
    ((r.trace = pre ∧ ∃ e, r.result = .error e) ∨
     ((∀ ev ∈ pre, ev.failed = false) ∧ ∃ repo : Repository,
       ((∃ e e1, r.trace = pre ++ [⟨.Add target.GithubRepo root ".", some e⟩] ∧
          r.result = .error e1) ∨
        (∃ e e1, r.trace = pre ++ [⟨.Add target.GithubRepo root ".", none⟩,
            ⟨.Commit target.GithubRepo conf.CommitMessage repo, some e⟩] ∧
          r.result = .error e1) ∨
        (∃ e e1, r.trace = pre ++ [⟨.Add target.GithubRepo root ".", none⟩,
            ⟨.Commit target.GithubRepo conf.CommitMessage repo, none⟩,
            ⟨.Push target.GithubRepo repo, some e⟩] ∧
          r.result = .error e1) ∨
        (r.trace = pre ++ [⟨.Add target.GithubRepo root ".", none⟩,
            ⟨.Commit target.GithubRepo conf.CommitMessage repo, none⟩,
            ⟨.Push target.GithubRepo repo, none⟩] ∧
          r.result = .ok ()))))

/-- The steps of the pipeline in the fixed order of the spec. -/
def specOrder : List Step :=
  [.PREPARE, .EMPTY, .PRE_RUN, .STAGE_FILES, .WRITE_METADATA, .VCS_ADD, .VCS_COMMIT, .VCS_PUSH]

/-- What each step of the pipeline does, in the words of the spec: PREPARE is
the clone or the open path, EMPTY clears the working copy, PRE_RUN runs the
configured command unless skipped, STAGE_FILES resolves the patterns and copies
the matches, WRITE_METADATA writes the custom-domain file, and VCS_ADD,
VCS_COMMIT and VCS_PUSH are one call each on the repository at the target
path. -/
def specStep {σ : Type} (w : World σ) (reposDir srcRootPath : String) (skipPreRun : Bool)
    (conf : Config) (target : Target) : Step → Prog σ Unit
  | .PREPARE =>
    (setupTargetRepo w target (filepath.Join [reposDir, target.GithubRepo])).bind fun _ =>
    Prog.pure ()
  | .EMPTY => emptyTargetRepo w (filepath.Join [reposDir, target.GithubRepo])
  | .PRE_RUN => preRun w skipPreRun conf srcRootPath
  | .STAGE_FILES =>
    (globFiles w conf.Files []).bind fun files =>
    copyFiles w srcRootPath (filepath.Join [reposDir, target.GithubRepo]) files
  | .WRITE_METADATA => writeCNAME w target (filepath.Join [reposDir, target.GithubRepo])
  | .VCS_ADD =>
    (w.call (.Add target.GithubRepo (filepath.Join [reposDir, target.GithubRepo]) ".")).bind
      fun err =>
    match err with
    | some e =>
      fatal.ExitErr e ("Failed to stage files in target repo "
        ++ filepath.Join [reposDir, target.GithubRepo])
    | none => Prog.pure ()
  | .VCS_COMMIT =>
    (w.call (.Commit target.GithubRepo conf.CommitMessage
      ⟨filepath.Join [reposDir, target.GithubRepo]⟩)).bind fun err =>
    match err with
    | some e =>
      fatal.ExitErr e ("Failed to commit files in target repo "
        ++ filepath.Join [reposDir, target.GithubRepo])
    | none => Prog.pure ()
  | .VCS_PUSH =>
    (w.call (.Push target.GithubRepo ⟨filepath.Join [reposDir, target.GithubRepo]⟩)).bind
      fun err =>
    match err with
    | some e =>
      fatal.ExitErr e ("Failed to push changes to GitHub for target repo "
        ++ filepath.Join [reposDir, target.GithubRepo])
    | none => Prog.pure ()

/-- Steps run one after the other: the first step that fails aborts all
remaining steps. -/
def specRun {σ : Type} (step : Step → Prog σ Unit) : List Step → Prog σ Unit
  | [] => Prog.pure ()
  | st :: rest => (step st).bind fun _ => specRun step rest

/-- A world with one state over the source tree `sourceTree`: `bad` gives the
error of the calls that fail, and `st` is what is found at every path. -/
def scriptedWorld (bad : Action → Option Error) (st : PathState) : World Unit where
  perform := fun _ a => (bad a, ())
  readDir := fun _ _ => .ok [⟨".git", true⟩, ⟨"old.html", false⟩]
  fs := fun _ => sourceTree
  pathState := fun _ _ => st

/-- Whether `part` occurs in `text`. -/
def occursIn (part text : String) : Prop := part.data <:+: text.data

/-- A world with one state in which no call fails, a pull reports that the
branch is already up to date, directories are empty and globbing finds
nothing. -/
def quietWorld : World Unit where
  perform := fun _ a =>
    match a with
    | .Pull _ _ => (some Error.NoErrAlreadyUpToDate, ())
    | _ => (none, ())
  readDir := fun _ _ => .ok []
  fs := fun _ => ⟨fun _ => false, fun _ => false, fun _ => []⟩
  pathState := fun _ _ => .populated

/-! ## Theorems -/

section Basics

variable {σ α β : Type}

theorem Prog.bind_ok (p : Prog σ α) (f : α → Prog σ β) (s : σ) (a : α)
    (h : (p s).result = .ok a) :
    (p.bind f) s = ⟨(f a (p s).state).result, (f a (p s).state).state,
      (p s).trace ++ (f a (p s).state).trace⟩ := by
  simp [Prog.bind, h]

theorem Prog.bind_error (p : Prog σ α) (f : α → Prog σ β) (s : σ) (e : Error)
    (h : (p s).result = .error e) :
    (p.bind f) s = ⟨.error e, (p s).state, (p s).trace⟩ := by
  simp [Prog.bind, h]

theorem Prog.bind_assoc {γ : Type} (p : Prog σ α) (f : α → Prog σ β) (g : β → Prog σ γ) :
    (p.bind f).bind g = p.bind (fun a => (f a).bind g) := by
  funext s
  cases h1 : (p s).result with
  | error e => simp [Prog.bind, h1]
  | ok a =>
    cases h2 : (f a (p s).state).result <;> simp [Prog.bind, h1, h2, List.append_assoc]

theorem Prog.bind_congr (p : Prog σ α) (f g : α → Prog σ β)
    (h : ∀ s a, (p s).result = .ok a → f a = g a) : p.bind f = p.bind g := by
  funext s
  cases h1 : (p s).result with
  | error e => simp [Prog.bind, h1]
  | ok a => simp [Prog.bind, h1, h s a h1]

theorem Prog.bind_pure (p : Prog σ Unit) : (p.bind fun _ => Prog.pure ()) = p := by
  funext s
  cases h1 : (p s).result with
  | error e =>
    rw [Prog.bind_error p _ s e h1]
    cases hp : p s
    rw [hp] at h1
    simp only at h1 ⊢
    rw [h1]
  | ok a =>
    rw [Prog.bind_ok p _ s a h1]
    cases hp : p s
    rw [hp] at h1
    simp only at h1
    simp [Prog.pure, h1]

end Basics

section Order

variable {σ α β : Type}

theorem orderly_pure (lo hi : Nat) (a : α) (s : σ) : (Prog.pure a s : Run σ α).orderly lo hi := by
  refine ⟨Or.inl ⟨a, rfl, ?_⟩, ?_, ?_⟩ <;> simp [Prog.pure]

theorem orderly_widen (lo hi lo1 hi1 : Nat) (r : Run σ α) (h : r.orderly lo hi)
    (h1 : lo1 ≤ lo) (h2 : hi ≤ hi1) : r.orderly lo1 hi1 :=
  ⟨h.1, h.2.1, fun ev hev => ⟨le_trans h1 (h.2.2 ev hev).1, le_trans (h.2.2 ev hev).2 h2⟩⟩

/-- Two orderly pieces run one after the other are orderly. -/
theorem orderly_bind (lo mid hi : Nat) (p : Prog σ α) (f : α → Prog σ β) (s : σ)
    (hp : (p s).orderly lo mid) (hf : ∀ a s1, (f a s1).orderly mid hi)
    (h1 : lo ≤ mid) (h2 : mid ≤ hi) : ((p.bind f) s).orderly lo hi := by
  obtain ⟨hstop, hsort, hin⟩ := hp
  rcases hstop with ⟨a, hres, hall⟩ | ⟨e, pre, last, hres, htr, hpre, hlast⟩
  · rw [Prog.bind_ok p f s a hres]
    obtain ⟨hstop2, hsort2, hin2⟩ := hf a (p s).state
    refine ⟨?_, ?_, ?_⟩
    · rcases hstop2 with ⟨b, hres2, hall2⟩ | ⟨e, pre, last, hres2, htr2, hpre2, hlast2⟩
      · refine Or.inl ⟨b, hres2, ?_⟩
        intro ev hev
        rcases List.mem_append.mp hev with h | h
        · exact hall ev h
        · exact hall2 ev h
      · refine Or.inr ⟨e, (p s).trace ++ pre, last, hres2, ?_, ?_, hlast2⟩
        · show (p s).trace ++ (f a (p s).state).trace = _
          rw [htr2, List.append_assoc]
        · intro ev hev
          rcases List.mem_append.mp hev with h | h
          · exact hall ev h
          · exact hpre2 ev h
    · show (List.map Event.index ((p s).trace ++ (f a (p s).state).trace)).Pairwise _
      rw [List.map_append, List.pairwise_append]
      refine ⟨hsort, hsort2, ?_⟩
      intro x hx y hy
      obtain ⟨ex, hex, rfl⟩ := List.mem_map.mp hx
      obtain ⟨ey, hey, rfl⟩ := List.mem_map.mp hy
      exact le_trans (hin ex hex).2 (hin2 ey hey).1
    · intro ev hev
      rcases List.mem_append.mp hev with h | h
      · exact ⟨(hin ev h).1, le_trans (hin ev h).2 h2⟩
      · exact ⟨le_trans h1 (hin2 ev h).1, (hin2 ev h).2⟩
  · rw [Prog.bind_error p f s e hres]
    refine ⟨Or.inr ⟨e, pre, last, rfl, htr, hpre, hlast⟩, hsort, ?_⟩
    intro ev hev
    exact ⟨(hin ev hev).1, le_trans (hin ev hev).2 h2⟩

/-- A call whose error stops the run, followed by an orderly piece, is orderly. -/
theorem orderly_call (w : World σ) (a : Action) (g : Error → Error) (cont : Prog σ α)
    (k hi : Nat) (hpull : ∀ p o, a ≠ .Pull p o) (hk : a.step.index = k) (hkhi : k ≤ hi)
    (hcont : ∀ s1, (cont s1).orderly k hi) (s : σ) :
    (((w.call a).bind fun err =>
      match err with
      | some e => Prog.fail (g e)
      | none => cont) s).orderly k hi := by
  rcases hr : w.perform s a with ⟨reply, s1⟩
  cases reply with
  | some e =>
    have hev : (Event.mk a (some e)).failed = true := by
      cases a <;> simp [Event.failed] at hpull ⊢
    have hrun : ((w.call a).bind fun err =>
        match err with
        | some e => Prog.fail (g e)
        | none => cont) s = ⟨.error (g e), s1, [⟨a, some e⟩]⟩ := by
      simp [Prog.bind, World.call, hr, Prog.fail]
    rw [hrun]
    refine ⟨Or.inr ⟨g e, [], ⟨a, some e⟩, rfl, rfl, by simp, hev⟩, by simp, ?_⟩
    intro ev hev
    simp at hev
    subst hev
    simp [Event.index, hk, hkhi]
  | none =>
    have hrun : ((w.call a).bind fun err =>
        match err with
        | some e => Prog.fail (g e)
        | none => cont) s
        = ⟨(cont s1).result, (cont s1).state, ⟨a, none⟩ :: (cont s1).trace⟩ := by
      simp [Prog.bind, World.call, hr]
    rw [hrun]
    obtain ⟨hstop, hsort, hin⟩ := hcont s1
    have hev : (Event.mk a none).failed = false := by simp [Event.failed]
    refine ⟨?_, ?_, ?_⟩
    · rcases hstop with ⟨b, hres, hall⟩ | ⟨e, pre, last, hres, htr, hpre, hlast⟩
      · refine Or.inl ⟨b, hres, ?_⟩
        intro ev h
        rcases List.mem_cons.mp h with rfl | h
        · exact hev
        · exact hall ev h
      · refine Or.inr ⟨e, ⟨a, none⟩ :: pre, last, hres, ?_, ?_, hlast⟩
        · show ⟨a, none⟩ :: (cont s1).trace = _
          rw [htr]; rfl
        · intro ev h
          rcases List.mem_cons.mp h with rfl | h
          · exact hev
          · exact hpre ev h
    · show (List.map Event.index (⟨a, none⟩ :: (cont s1).trace)).Pairwise _
      rw [List.map_cons, List.pairwise_cons]
      refine ⟨?_, hsort⟩
      intro y hy
      obtain ⟨ey, hey, rfl⟩ := List.mem_map.mp hy
      simpa [Event.index, hk] using (hin ey hey).1
    · intro ev h
      rcases List.mem_cons.mp h with rfl | h
      · simp [Event.index, hk, hkhi]
      · exact hin ev h

/-- A Go call returning `(value, error)` whose error stops the run is as
orderly as the function called. -/
theorem orderly_try (lo hi : Nat) (p : Prog σ α) (g : Error → Error)
    (f : Except Error α → Prog σ α) (s : σ)
    (hferr : ∀ err, f (.error err) = Prog.fail (g err)) (hfok : ∀ a, f (.ok a) = Prog.pure a)
    (hp : (p s).orderly lo hi) : ((p.try_.bind f) s).orderly lo hi := by
  obtain ⟨hstop, hsort, hin⟩ := hp
  rcases hstop with ⟨a, hres, hall⟩ | ⟨e, pre, last, hres, htr, hpre, hlast⟩
  · have hrun : (p.try_.bind f) s = ⟨.ok a, (p s).state, (p s).trace⟩ := by
      simp [Prog.bind, Prog.try_, hres, hfok, Prog.pure]
    rw [hrun]
    exact ⟨Or.inl ⟨a, rfl, hall⟩, hsort, hin⟩
  · have hrun : (p.try_.bind f) s = ⟨.error (g e), (p s).state, (p s).trace⟩ := by
      simp [Prog.bind, Prog.try_, hres, hferr, Prog.fail]
    rw [hrun]
    exact ⟨Or.inr ⟨g e, pre, last, rfl, htr, hpre, hlast⟩, hsort, hin⟩

end Order

section Paths

/-- The pieces of `a ++ sep :: b` are the pieces of `a` followed by those of `b`. -/
theorem splitChars_append (sep : Char) (a b : List Char) :
    strings.splitChars sep (a ++ sep :: b)
      = ((strings.splitChars sep a).1,
         (strings.splitChars sep a).2
           ++ (strings.splitChars sep b).1 :: (strings.splitChars sep b).2) := by
  induction a with
  | nil => simp [strings.splitChars]
  | cons c a ih =>
    by_cases hc : c = sep
    · simp [strings.splitChars, hc, ih]
    · simp [strings.splitChars, hc, ih]

/-- A list without the separator is one piece. -/
theorem splitChars_of_not_mem (sep : Char) (cs : List Char) (h : sep ∉ cs) :
    strings.splitChars sep cs = (cs, []) := by
  induction cs with
  | nil => rfl
  | cons c cs ih =>
    have hc : c ≠ sep := fun e => h (by simp [e])
    have hcs : sep ∉ cs := fun m => h (by simp [m])
    simp [strings.splitChars, hc, ih hcs]

/-- No piece holds the separator. -/
theorem splitChars_not_mem (sep : Char) (cs : List Char) :
    sep ∉ (strings.splitChars sep cs).1 ∧ ∀ p ∈ (strings.splitChars sep cs).2, sep ∉ p := by
  induction cs with
  | nil => simp [strings.splitChars]
  | cons c cs ih =>
    by_cases hc : c = sep
    · simp only [strings.splitChars, hc, if_true]
      refine ⟨by simp, ?_⟩
      intro p hp
      rcases List.mem_cons.mp hp with rfl | hp
      · exact ih.1
      · exact ih.2 p hp
    · simp only [strings.splitChars, hc, if_false]
      refine ⟨?_, ih.2⟩
      intro hm
      rcases List.mem_cons.mp hm with h | h
      · exact hc h.symm
      · exact ih.1 h

theorem data_append_eq (a b : String) : (a ++ b).data = a.data ++ b.data := rfl

theorem eq_empty_iff_data (a : String) : a = "" ↔ a.data = [] := by
  constructor
  · intro h; rw [h]
  · intro h; exact String.ext h

/-- Splitting distributes over joining two strings with the separator. -/
theorem Split_append (a b : String) :
    strings.Split (a ++ "/" ++ b) '/' = strings.Split a '/' ++ strings.Split b '/' := by
  have h : (a ++ "/" ++ b).data = a.data ++ '/' :: b.data := by
    simp [data_append_eq]
  simp [strings.Split, h, splitChars_append]

/-- A string without the separator is its own single piece. -/
theorem Split_of_not_mem (a : String) (h : '/' ∉ a.data) : strings.Split a '/' = [a] := by
  simp [strings.Split, splitChars_of_not_mem _ _ h]

/-- No piece of a split holds the separator. -/
theorem Split_not_mem (sep : Char) (s e : String) (he : e ∈ strings.Split s sep) :
    sep ∉ e.data := by
  have h := splitChars_not_mem sep s.data
  simp only [strings.Split, List.mem_cons, List.mem_map] at he
  rcases he with rfl | ⟨p, hp, rfl⟩
  · exact h.1
  · exact h.2 p hp

/-- Joining with the separator and splitting again gives the pieces back. -/
theorem Split_Join (e : String) (es : List String) (h : ∀ x ∈ e :: es, '/' ∉ x.data) :
    strings.Split (strings.Join (e :: es) "/") '/' = e :: es := by
  induction es generalizing e with
  | nil => simpa [strings.Join] using Split_of_not_mem e (h e (by simp))
  | cons b rest ih =>
    have hb : ∀ x ∈ b :: rest, '/' ∉ x.data := fun x hx => h x (by simp [List.mem_cons.mp hx])
    simp only [strings.Join]
    rw [Split_append, ih b hb, Split_of_not_mem e (h e (by simp))]
    rfl

/-- Scanning elements none of which is `..` keeps exactly the names among
them. -/
theorem foldl_cleanStep (rooted : Bool) (comps out : List String) (h : ".." ∉ comps) :
    comps.foldl (filepath.cleanStep rooted) out = (comps.filter isName).reverse ++ out := by
  induction comps generalizing out with
  | nil => rfl
  | cons e comps ih =>
    have he : e ≠ ".." := fun x => h (by simp [x])
    have hc : ".." ∉ comps := fun m => h (by simp [m])
    rw [List.foldl_cons, ih _ hc]
    by_cases h1 : e = "" ∨ e = "."
    · have : isName e = false := by
        rcases h1 with rfl | rfl <;> decide
      simp [filepath.cleanStep, h1, List.filter_cons, this]
    · have : isName e = true := by
        simpa [isName, not_or] using h1
      simp [filepath.cleanStep, h1, he, List.filter_cons, this]

/-- The scan keeps only names without a separator. -/
theorem foldl_cleanStep_names (rooted : Bool) (comps out : List String)
    (hc : ∀ x ∈ comps, '/' ∉ x.data) (ho : ∀ x ∈ out, isName x = true ∧ '/' ∉ x.data) :
    ∀ x ∈ comps.foldl (filepath.cleanStep rooted) out, isName x = true ∧ '/' ∉ x.data := by
  induction comps generalizing out with
  | nil => simpa using ho
  | cons e comps ih =>
    rw [List.foldl_cons]
    apply ih _ (fun x hx => hc x (by simp [hx]))
    have hes : '/' ∉ e.data := hc e (by simp)
    unfold filepath.cleanStep
    by_cases h1 : e = "" ∨ e = "."
    · simpa [h1] using ho
    · rw [if_neg h1]
      by_cases h2 : e = ".."
      · rw [if_pos h2]
        cases out with
        | nil =>
          cases rooted
          · intro x hx
            simp at hx
            subst hx
            exact ⟨by decide, by decide⟩
          · simp
        | cons top rest =>
          by_cases h3 : top = ".."
          · simp only [h3, if_true]
            intro x hx
            rcases List.mem_cons.mp hx with rfl | hx
            · exact ⟨by decide, by decide⟩
            · exact ho x (by rw [h3]; exact hx)
          · simp only [h3, if_false]
            intro x hx
            exact ho x (by simp [hx])
      · rw [if_neg h2]
        intro x hx
        rcases List.mem_cons.mp hx with rfl | hx
        · exact ⟨by simpa [isName, not_or] using h1, hes⟩
        · exact ho x hx

/-- The elements of a cleaned path are names without a separator. -/
theorem cleanElems_names (p : String) :
    ∀ x ∈ filepath.cleanElems p, isName x = true ∧ '/' ∉ x.data := by
  intro x hx
  unfold filepath.cleanElems at hx
  rw [List.mem_reverse] at hx
  exact foldl_cleanStep_names _ _ [] (fun y hy => Split_not_mem '/' p y hy) (by simp) x hx

/-- Filtering names out of a list of names changes nothing. -/
theorem filter_isName_of_names (l : List String) (h : ∀ x ∈ l, isName x = true) :
    l.filter isName = l := by
  induction l with
  | nil => rfl
  | cons a l ih =>
    simp [List.filter_cons, h a (by simp), ih (fun x hx => h x (by simp [hx]))]

/-- The names along a cleaned path are the elements the cleaning kept. -/
theorem pathElems_Clean (p : String) : pathElems (filepath.Clean p) = filepath.cleanElems p := by
  have hn := cleanElems_names p
  unfold filepath.Clean
  by_cases hr : filepath.isRooted p = true
  · rw [if_pos hr]
    cases he : filepath.cleanElems p with
    | nil => decide
    | cons e es =>
      rw [he] at hn
      have : ("/" : String) ++ strings.Join (e :: es) "/" = "" ++ "/" ++ strings.Join (e :: es) "/" := rfl
      rw [pathElems, this, Split_append, Split_Join e es (fun x hx => (hn x hx).2)]
      have h0 : strings.Split "" '/' = [""] := by decide
      rw [h0]
      have h1 : List.filter isName ([""] ++ e :: es) = List.filter isName (e :: es) := by
        rw [List.filter_append]; rfl
      rw [h1]
      exact filter_isName_of_names _ (fun x hx => (hn x hx).1)
  · rw [if_neg hr]
    cases he : filepath.cleanElems p with
    | nil => decide
    | cons e es =>
      rw [he] at hn
      rw [if_neg (by simp), pathElems, Split_Join e es (fun x hx => (hn x hx).2)]
      exact filter_isName_of_names _ (fun x hx => (hn x hx).1)

/-- An element of a cleaned path, as a string, is empty, `.` or one of the
elements the cleaning kept. -/
theorem mem_Split_Clean (p x : String) (hx : x ∈ strings.Split (filepath.Clean p) '/') :
    x = "" ∨ x = "." ∨ x ∈ filepath.cleanElems p := by
  have hn := cleanElems_names p
  unfold filepath.Clean at hx
  by_cases hr : filepath.isRooted p = true
  · rw [if_pos hr] at hx
    cases he : filepath.cleanElems p with
    | nil =>
      rw [he] at hx
      have h0 : strings.Split ("/" ++ strings.Join [] "/") '/' = ["", ""] := by decide
      rw [h0] at hx
      left
      simpa using hx
    | cons e es =>
      rw [he] at hn hx
      have : ("/" : String) ++ strings.Join (e :: es) "/" = "" ++ "/" ++ strings.Join (e :: es) "/" := rfl
      rw [this, Split_append, Split_Join e es (fun x hx => (hn x hx).2)] at hx
      have h0 : strings.Split "" '/' = [""] := by decide
      rw [h0] at hx
      rcases List.mem_append.mp hx with h | h
      · left; simpa using h
      · right; right; exact h
  · rw [if_neg hr] at hx
    cases he : filepath.cleanElems p with
    | nil =>
      rw [he] at hx
      have h0 : strings.Split "." '/' = ["."] := by decide
      simp only [if_true] at hx
      rw [h0] at hx
      right; left
      simpa using hx
    | cons e es =>
      rw [he] at hn hx
      rw [if_neg (by simp), Split_Join e es (fun x hx => (hn x hx).2)] at hx
      right; right; exact hx

/-- Joining something to a non-empty path leaves it rooted or not as it was. -/
theorem isRooted_append (root d : String) (h : root ≠ "") :
    filepath.isRooted (root ++ "/" ++ d) = filepath.isRooted root := by
  have hd : root.data ≠ [] := fun e => h ((eq_empty_iff_data root).mpr e)
  have happ : (root ++ "/" ++ d).data = root.data ++ ("/".data ++ d.data) := by
    simp [data_append_eq]
  unfold filepath.isRooted
  rw [happ]
  cases hr : root.data with
  | nil => exact absurd hr hd
  | cons c cs => simp

/-- The two cases of `filepath.Join` on two elements. -/
theorem Join_pair (root d : String) :
    filepath.Join [root, d]
      = if root = "" then (if d = "" then "" else filepath.Clean d)
        else filepath.Clean (root ++ "/" ++ d) := by
  by_cases hr : root = ""
  · by_cases hd : d = ""
    · simp [filepath.Join, hr, hd, List.dropWhile]
    · simp [filepath.Join, hr, hd, List.dropWhile, strings.Join]
  · simp [filepath.Join, hr, List.dropWhile, strings.Join]

/-- Cleaning a path without `..` keeps its names. -/
theorem cleanElems_of_no_dotdot (d : String) (h : ".." ∉ strings.Split d '/') :
    filepath.cleanElems d = pathElems d := by
  unfold filepath.cleanElems pathElems
  rw [foldl_cleanStep _ _ _ h]
  simp

/-- The names along `Join(root, d)`, for `d` without `..`: those of the cleaned
root followed by those of `d`. -/
theorem pathElems_Join (root d : String) (h : ".." ∉ strings.Split d '/') :
    pathElems (filepath.Join [root, d]) = pathElems (filepath.Clean root) ++ pathElems d := by
  rw [Join_pair]
  by_cases hr : root = ""
  · rw [if_pos hr, hr]
    have h0 : pathElems (filepath.Clean "") = [] := by decide
    rw [h0, List.nil_append]
    by_cases hd : d = ""
    · rw [if_pos hd, hd]
    · rw [if_neg hd, pathElems_Clean, cleanElems_of_no_dotdot d h]
  · rw [if_neg hr, pathElems_Clean, pathElems_Clean]
    unfold filepath.cleanElems
    rw [isRooted_append root d hr, Split_append, List.foldl_append, foldl_cleanStep _ _ _ h]
    simp [pathElems]

/-- Dropping leading empty elements loses no name. -/
theorem filter_isName_dropWhile (es : List String) :
    (es.dropWhile (fun e => e = "")).filter isName = es.filter isName := by
  induction es with
  | nil => rfl
  | cons e es ih =>
    by_cases he : e = ""
    · have hn : isName e = false := by rw [he]; decide
      rw [List.dropWhile_cons, if_pos (by simpa using he), ih, List.filter_cons, hn]
      simp
    · simp [List.dropWhile_cons, he]

/-- The first element left by dropping the leading empty ones is not empty. -/
theorem head_dropWhile_ne_empty (es rest : List String) (e : String)
    (h : es.dropWhile (fun e => e = "") = e :: rest) : e ≠ "" := by
  induction es with
  | nil => simp at h
  | cons a es ih =>
    by_cases ha : a = ""
    · simp [List.dropWhile_cons, ha] at h
      exact ih (by simpa using h)
    · simp [List.dropWhile_cons, ha] at h
      rw [← h.1]; exact ha

/-- The characters of a joined list start with those of its first element. -/
theorem Join_data (e : String) (es : List String) (sep : String) :
    ∃ rest, (strings.Join (e :: es) sep).data = e.data ++ rest := by
  cases es with
  | nil => exact ⟨[], by simp [strings.Join]⟩
  | cons b es => exact ⟨(sep ++ strings.Join (b :: es) sep).data, by
      simp [strings.Join, data_append_eq]⟩

/-- A join whose first element is not empty and holds no separator is not
rooted. -/
theorem isRooted_strings_Join (e : String) (es : List String) (sep : String)
    (h1 : e ≠ "") (h2 : '/' ∉ e.data) : filepath.isRooted (strings.Join (e :: es) sep) = false := by
  obtain ⟨rest, hrest⟩ := Join_data e es sep
  have hd : e.data ≠ [] := fun x => h1 ((eq_empty_iff_data e).mpr x)
  unfold filepath.isRooted
  rw [hrest]
  cases he : e.data with
  | nil => exact absurd he hd
  | cons c cs =>
    have : c ≠ '/' := fun x => h2 (by rw [he, x]; simp)
    simp [this]

/-- Cleaning leaves a path rooted or not as it was. -/
theorem isRooted_Clean (p : String) : filepath.isRooted (filepath.Clean p) = filepath.isRooted p := by
  have hn := cleanElems_names p
  unfold filepath.Clean
  by_cases hr : filepath.isRooted p = true
  · rw [if_pos hr, hr]
    simp [filepath.isRooted, data_append_eq]
  · rw [if_neg hr]
    have hr' : filepath.isRooted p = false := by simpa using hr
    rw [hr']
    cases he : filepath.cleanElems p with
    | nil => decide
    | cons e es =>
      rw [he] at hn
      rw [if_neg (by simp)]
      have h1 := (hn e (by simp)).1
      have h1' : e ≠ "" := by
        intro x; rw [x] at h1; exact absurd h1 (by decide)
      exact isRooted_strings_Join e es "/" h1' (hn e (by simp)).2

/-- The names along `Join(es...)`, for elements without a separator and other
than `..`, are the names among the elements; the result holds no `..` and is
not rooted. -/
theorem pathElems_Join_list (es : List String) (hs : ∀ x ∈ es, '/' ∉ x.data)
    (hd : ".." ∉ es) :
    pathElems (filepath.Join es) = es.filter isName ∧
    ".." ∉ strings.Split (filepath.Join es) '/' ∧
    filepath.isRooted (filepath.Join es) = false := by
  have hsub : ∀ x ∈ es.dropWhile (fun e => e = ""), x ∈ es :=
    fun x hx => (List.dropWhile_sublist _).subset hx
  have hfil := filter_isName_dropWhile es
  unfold filepath.Join
  cases hL : es.dropWhile (fun e => e = "") with
  | nil =>
    rw [hL] at hfil
    refine ⟨?_, by decide, by decide⟩
    rw [← hfil]; decide
  | cons e rest =>
    rw [hL] at hfil hsub
    have hsplit : strings.Split (strings.Join (e :: rest) "/") '/' = e :: rest :=
      Split_Join e rest (fun x hx => hs x (hsub x hx))
    have hno : ".." ∉ strings.Split (strings.Join (e :: rest) "/") '/' := by
      rw [hsplit]; exact fun m => hd (hsub _ m)
    have hclean := cleanElems_of_no_dotdot _ hno
    have hpe : pathElems (strings.Join (e :: rest) "/") = es.filter isName := by
      rw [pathElems, hsplit]; exact hfil
    refine ⟨?_, ?_, ?_⟩
    · show pathElems (filepath.Clean _) = _
      rw [pathElems_Clean, hclean, hpe]
    · show ".." ∉ strings.Split (filepath.Clean _) '/'
      intro hm
      rcases mem_Split_Clean _ _ hm with h | h | h
      · exact absurd h (by decide)
      · exact absurd h (by decide)
      · rw [hclean, hpe] at h
        exact hd (List.mem_filter.mp h).1
    · show filepath.isRooted (filepath.Clean _) = false
      rw [isRooted_Clean]
      exact isRooted_strings_Join e rest "/" (head_dropWhile_ne_empty es rest e hL)
        (hs e (hsub e (by simp)))

/-- The components of `destFile`: the names among the kept components of the
matched path, when none of these is `..`. The result is never rooted. -/
theorem pathElems_destFile (file : String) (h : ".." ∉ keptComponents file) :
    pathElems (destFile file) = (keptComponents file).filter isName ∧
    ".." ∉ strings.Split (destFile file) '/' ∧
    filepath.isRooted (destFile file) = false := by
  unfold destFile
  unfold keptComponents at h ⊢
  by_cases h1 : (strings.Split file '/').length = 1
  · rw [if_pos h1] at h ⊢
    rw [if_pos h1]
    refine ⟨rfl, h, ?_⟩
    have hslash : '/' ∉ file.data := by
      intro hm
      obtain ⟨a, b, hab⟩ := List.append_of_mem hm
      have := splitChars_append '/' a b
      rw [← hab] at this
      simp [strings.Split, this] at h1
    unfold filepath.isRooted
    cases hfd : file.data with
    | nil => simp
    | cons c cs =>
      have : c ≠ '/' := fun x => hslash (by rw [hfd, x]; simp)
      simp [this]
  · rw [if_neg h1] at h ⊢
    rw [if_neg h1]
    exact pathElems_Join_list _
      (fun x hx => Split_not_mem '/' file x (List.mem_of_mem_drop hx)) h

/-- The names along the destination of a matched path whose kept components
hold no `..`: those of the cleaned target path followed by the names among the
kept components. The destination is rooted exactly when the target path is. -/
theorem pathElems_destPath (root file : String) (h : ".." ∉ keptComponents file) :
    pathElems (destPath root file)
      = pathElems (filepath.Clean root) ++ (keptComponents file).filter isName ∧
    filepath.isRooted (destPath root file) = filepath.isRooted root := by
  obtain ⟨h1, h2, h3⟩ := pathElems_destFile file h
  refine ⟨?_, ?_⟩
  · unfold destPath
    rw [pathElems_Join root (destFile file) h2, h1]
  · unfold destPath
    rw [Join_pair]
    by_cases hr : root = ""
    · rw [if_pos hr, hr]
      by_cases hd : destFile file = ""
      · rw [if_pos hd]
      · rw [if_neg hd, isRooted_Clean, h3]; decide
    · rw [if_neg hr, isRooted_Clean, isRooted_append root _ hr]

/-- Joining the pieces of a split with the separator gives the string back. -/
theorem Join_Split_chars (sep : Char) (cs : List Char) :
    (strings.Join (String.mk (strings.splitChars sep cs).1
      :: (strings.splitChars sep cs).2.map String.mk) (String.mk [sep])).data = cs := by
  induction cs with
  | nil => rfl
  | cons c cs ih =>
    by_cases hc : c = sep
    · subst hc
      simp only [strings.splitChars, if_true, List.map_cons, strings.Join]
      rw [data_append_eq, data_append_eq, ih]
      rfl
    · simp only [strings.splitChars, hc, if_false]
      cases hws : (strings.splitChars sep cs).2 with
      | nil =>
        rw [hws] at ih
        simp only [List.map_nil, strings.Join] at ih ⊢
        rw [ih]
      | cons b ws =>
        rw [hws] at ih
        simp only [List.map_cons, strings.Join] at ih ⊢
        rw [data_append_eq, data_append_eq] at ih ⊢
        simp only [List.cons_append]
        rw [ih]

/-- Joining the pieces of a split with the separator gives the string back. -/
theorem Join_Split_sep (s : String) (sep : Char) :
    strings.Join (strings.Split s sep) (String.mk [sep]) = s :=
  String.ext (Join_Split_chars sep s.data)

/-- Joining the components of a path with the separator gives the path back. -/
theorem Join_Split (s : String) : strings.Join (strings.Split s '/') "/" = s :=
  Join_Split_sep s '/'

/-- `filepath.Join` of names other than `..` is the names joined by the
separator. -/
theorem filepath_Join_names (e : String) (es : List String)
    (h : ∀ x ∈ e :: es, isName x = true ∧ x ≠ ".." ∧ '/' ∉ x.data) :
    filepath.Join (e :: es) = strings.Join (e :: es) "/" := by
  have he : e ≠ "" := by
    intro x
    have := (h e (by simp)).1
    rw [x] at this
    exact absurd this (by decide)
  have hsplit : strings.Split (strings.Join (e :: es) "/") '/' = e :: es :=
    Split_Join e es (fun x hx => (h x hx).2.2)
  have hno : ".." ∉ strings.Split (strings.Join (e :: es) "/") '/' := by
    rw [hsplit]; intro hm; exact (h _ hm).2.1 rfl
  have hclean : filepath.cleanElems (strings.Join (e :: es) "/") = e :: es := by
    rw [cleanElems_of_no_dotdot _ hno, pathElems, hsplit]
    exact filter_isName_of_names _ (fun x hx => (h x hx).1)
  have hroot := isRooted_strings_Join e es "/" he (h e (by simp)).2.2
  simp [filepath.Join, List.dropWhile_cons, he, filepath.Clean, hroot, hclean]

end Paths

section Destinations

/-- C7, as amended. For every matched path whose kept components (the only
component, or all after the first) are none of them `..` or `.git`, the
destination lies under the working-copy root: the names along it are those of
the cleaned root followed by the names among the kept components, none of
which is `.git` or `..`, and it is rooted exactly when the root is. -/
theorem destPath_below_root (root file : String)
    (h : ∀ e ∈ keptComponents file, e ≠ ".." ∧ e ≠ ".git") :
    pathElems (destPath root file)
      = pathElems (filepath.Clean root) ++ (keptComponents file).filter isName ∧
    ".git" ∉ (keptComponents file).filter isName ∧
    ".." ∉ (keptComponents file).filter isName ∧
    filepath.isRooted (destPath root file) = filepath.isRooted root := by
  have hd : ".." ∉ keptComponents file := fun m => (h _ m).1 rfl
  obtain ⟨h1, h2⟩ := pathElems_destPath root file hd
  exact ⟨h1, fun m => (h _ (List.mem_filter.mp m).1).2 rfl,
    fun m => (h _ (List.mem_filter.mp m).1).1 rfl, h2⟩

/-- C7, as amended, at a concrete input: `dist/css/app.css` goes to `css` and
`app.css` below the root. -/
theorem destPath_below_root_witness :
    pathElems (destPath "/repos/owner/site" "dist/css/app.css")
      = pathElems (filepath.Clean "/repos/owner/site")
        ++ (keptComponents "dist/css/app.css").filter isName ∧
    ".git" ∉ (keptComponents "dist/css/app.css").filter isName ∧
    ".." ∉ (keptComponents "dist/css/app.css").filter isName ∧
    filepath.isRooted (destPath "/repos/owner/site" "dist/css/app.css")
      = filepath.isRooted "/repos/owner/site" :=
  destPath_below_root "/repos/owner/site" "dist/css/app.css" (by decide)

/-- C7, a counterexample. From the source root the pattern `*` matches the
`.git` directory of the source repository, and its destination is the `.git`
directory of the working copy: the pipeline hands that pair to the copy. The
pattern `../../notes.txt` matches a file whose destination lies outside the
working copy. -/
theorem destPath_git_counterexample :
    filepath.Glob sourceTree "*" = .ok [".git", "README.md", "dist"] ∧
    destPath "/repos/owner/site" ".git" = "/repos/owner/site/.git" ∧
    ".git" ∈ pathElems (destPath "/repos/owner/site" ".git") ∧
    (⟨.Copy "/work/site/.git" "/repos/owner/site/.git", none⟩ : Event) ∈
      (main sourceWorld "/repos" "/work/site" false ⟨["*"], "", "publish"⟩
        ⟨"owner/site", "gh-pages", ""⟩ ()).trace ∧
    filepath.Glob sourceTree "../../notes.txt" = .ok ["../../notes.txt"] ∧
    destPath "/repos/owner/site" "../../notes.txt" = "/repos/owner/notes.txt" := by
  refine ⟨by decide, by decide, by decide, by decide, by decide, by decide⟩

/-- C1, as amended. The destination is derived from the matched path, not from
the pattern. A matched path of exactly one component is placed under that name
at the working-copy root. A matched path of more components is placed at the
join of its components after the first, under the root: when these are names
other than `..`, that is the matched path without its first component and the
separator after it, and whenever none of them is `..` the names along the
destination are those of the root followed by the names among them. In
particular `dist/index.html`, `dist/css/app.css` and `README.md` are placed at
`index.html`, `css/app.css` and `README.md`. -/
theorem destPath_by_matched_path (root file : String) :
    destPath root file = filepath.Join [root, destFile file] ∧
    ((strings.Split file '/').length = 1 → destFile file = file) ∧
    (∀ first rest, strings.Split file '/' = first :: rest → rest ≠ [] →
      destFile file = filepath.Join rest ∧
      ((∀ e ∈ rest, isName e = true ∧ e ≠ "..") → file = first ++ "/" ++ destFile file) ∧
      (".." ∉ rest →
        pathElems (destPath root file) = pathElems (filepath.Clean root) ++ rest.filter isName)) ∧
    destPath root "dist/index.html" = filepath.Join [root, "index.html"] ∧
    destPath root "dist/css/app.css" = filepath.Join [root, "css/app.css"] ∧
    destPath root "README.md" = filepath.Join [root, "README.md"] := by
  refine ⟨rfl, ?_, ?_, ?_, ?_, ?_⟩
  · intro h1
    simp [destFile, h1]
  · intro first rest hsplit hrest
    have hlen : (strings.Split file '/').length ≠ 1 := by
      rw [hsplit]
      cases rest with
      | nil => exact absurd rfl hrest
      | cons e es => simp
    have hdest : destFile file = filepath.Join rest := by
      unfold destFile
      rw [if_neg hlen, hsplit]
      rfl
    have hkept : keptComponents file = rest := by
      unfold keptComponents
      rw [if_neg hlen, hsplit]
      rfl
    refine ⟨hdest, ?_, ?_⟩
    · intro hnames
      cases rest with
      | nil => exact absurd rfl hrest
      | cons e es =>
        have hslash : ∀ x ∈ e :: es, '/' ∉ x.data := fun x hx =>
          Split_not_mem '/' file x (by rw [hsplit]; exact List.mem_cons_of_mem _ hx)
        rw [hdest, filepath_Join_names e es
          (fun x hx => ⟨(hnames x hx).1, (hnames x hx).2, hslash x hx⟩)]
        have hj := Join_Split file
        rw [hsplit] at hj
        exact hj.symm
    · intro hno
      rw [← hkept] at hno ⊢
      exact (pathElems_destPath root file hno).1
  · have : destFile "dist/index.html" = "index.html" := by decide
    rw [destPath, this]
  · have : destFile "dist/css/app.css" = "css/app.css" := by decide
    rw [destPath, this]
  · have : destFile "README.md" = "README.md" := by decide
    rw [destPath, this]

/-- C1, a counterexample. The pattern `./*` has two components and matches
`README.md`, reported without the `./`: the pipeline copies it to `README.md`
at the root, where the rule stated on the pattern removes the first component
of the matched path and leaves the root itself. -/
theorem destPath_pattern_counterexample :
    filepath.Glob sourceTree "./*" = .ok [".git", "README.md", "dist"] ∧
    (strings.Split "./*" '/').length = 2 ∧
    destPath "/repos/owner/site" "README.md" = "/repos/owner/site/README.md" ∧
    specDestPath "/repos/owner/site" "./*" "README.md" = "/repos/owner/site" ∧
    destPath "/repos/owner/site" "README.md"
      ≠ specDestPath "/repos/owner/site" "./*" "README.md" ∧
    (⟨.Copy "/work/site/README.md" "/repos/owner/site/README.md", none⟩ : Event) ∈
      (main sourceWorld "/repos" "/work/site" false ⟨["./*"], "", "publish"⟩
        ⟨"owner/site", "gh-pages", ""⟩ ()).trace := by
  refine ⟨by decide, by decide, by decide, by decide, by decide, by decide⟩

end Destinations


section Steps

variable {σ : Type}

theorem Prog.pure_bind {α β : Type} (a : α) (f : α → Prog σ β) :
    (Prog.pure a).bind f = f a := by
  funext s
  simp [Prog.bind, Prog.pure]

/-- The destination of the CNAME file is the name `CNAME` directly under the
working-copy root. -/
theorem pathElems_CNAME (targetRepoPath : String) :
    pathElems (filepath.Join [targetRepoPath, "CNAME"])
      = pathElems (filepath.Clean targetRepoPath) ++ ["CNAME"] := by
  rw [pathElems_Join targetRepoPath "CNAME" (by decide)]
  rfl

/-- C10. For every custom domain string: when it is not empty, the only call of
the step writes the file `CNAME` directly under the working-copy root, with
exactly the domain string as its content; when it is empty, the step makes no
call and changes nothing. For the domain `example.com` the content is
`example.com`. -/
theorem writeCNAME_content (w : World σ) (target : Target) (targetRepoPath : String) (s : σ) :
    (target.CustomURL ≠ "" →
      ∃ reply,
        (writeCNAME w target targetRepoPath s).trace
          = [⟨.WriteFile (filepath.Join [targetRepoPath, "CNAME"]) target.CustomURL 0o644,
              reply⟩]) ∧
    (target.CustomURL = "" →
      (writeCNAME w target targetRepoPath s).trace = [] ∧
      (writeCNAME w target targetRepoPath s).result = .ok () ∧
      (writeCNAME w target targetRepoPath s).state = s) ∧
    pathElems (filepath.Join [targetRepoPath, "CNAME"])
      = pathElems (filepath.Clean targetRepoPath) ++ ["CNAME"] ∧
    (writeCNAME quietWorld ⟨"owner/site", "gh-pages", "example.com"⟩ "/repos/owner/site" ()).trace
      = [⟨.WriteFile "/repos/owner/site/CNAME" "example.com" 0o644, none⟩] := by
  refine ⟨?_, ?_, pathElems_CNAME targetRepoPath, by decide⟩
  · intro h
    refine ⟨(w.perform s (.WriteFile (filepath.Join [targetRepoPath, "CNAME"])
      target.CustomURL 0o644)).1, ?_⟩
    unfold writeCNAME
    rw [if_pos h]
    cases hr : (w.perform s (.WriteFile (filepath.Join [targetRepoPath, "CNAME"])
      target.CustomURL 0o644)).1 <;>
      simp [Prog.bind, World.call, hr, fatal.ExitErr, Prog.fail, Prog.pure]
  · intro h
    simp [writeCNAME, h, Prog.pure]

/-- Where the only white space is the space character, the pieces between
white space are the pieces between spaces. -/
theorem fieldsChars_eq_splitChars (cs : List Char)
    (h : ∀ c ∈ cs, isSpace c = true → c = ' ') :
    fieldsChars cs = strings.splitChars ' ' cs := by
  induction cs with
  | nil => rfl
  | cons c cs ih =>
    have ih' := ih (fun x hx => h x (by simp [hx]))
    by_cases hc : c = ' '
    · have hs : isSpace c = true := by rw [hc]; decide
      simp [fieldsChars, strings.splitChars, hc, ih']
      decide
    · have hs : ¬ isSpace c = true := fun x => hc (h c (by simp) x)
      simp [fieldsChars, strings.splitChars, hc, hs, ih']

/-- C9, as amended. For every non-empty configured pre-run command run without
the skip flag, the only call of the step runs a command with the source root
as its working directory; the executable and the arguments are the pieces of
the command string between its space characters, in order: joined by single
spaces they give the command back and none holds a space. A piece is empty
where spaces are adjacent, leading or trailing, and other white space does not
separate; when the only white space of the command is the space character and
no piece is empty, the pieces are the whitespace-separated words. -/
theorem preRun_splits_on_spaces (w : World σ) (conf : Config) (srcRootPath : String) (s : σ)
    (h : conf.PreRunScript ≠ "") :
    ∃ name args reply,
      (preRun w false conf srcRootPath s).trace = [⟨.Exec name srcRootPath args, reply⟩] ∧
      name :: args = strings.Split conf.PreRunScript ' ' ∧
      strings.Join (name :: args) " " = conf.PreRunScript ∧
      (∀ a ∈ name :: args, ' ' ∉ a.data) ∧
      ((∀ c ∈ conf.PreRunScript.data, isSpace c = true → c = ' ') →
        (∀ a ∈ name :: args, a ≠ "") → name :: args = specFields conf.PreRunScript) := by
  refine ⟨String.mk (strings.splitChars ' ' conf.PreRunScript.data).1,
    (strings.splitChars ' ' conf.PreRunScript.data).2.map String.mk,
    (w.perform s (.Exec (String.mk (strings.splitChars ' ' conf.PreRunScript.data).1) srcRootPath
      ((strings.splitChars ' ' conf.PreRunScript.data).2.map String.mk))).1, ?_, rfl,
    Join_Split_sep conf.PreRunScript ' ',
    fun a ha => Split_not_mem ' ' conf.PreRunScript a ha, ?_⟩
  · unfold preRun
    rw [if_pos ⟨rfl, h⟩]
    simp only [strings.Split]
    cases hr : (w.perform s (.Exec (String.mk (strings.splitChars ' ' conf.PreRunScript.data).1)
      srcRootPath ((strings.splitChars ' ' conf.PreRunScript.data).2.map String.mk))).1 <;>
      simp [Prog.bind, World.call, hr, fatal.ExitErr, Prog.fail, Prog.pure]
  · intro hsp hne
    unfold specFields
    rw [fieldsChars_eq_splitChars _ hsp]
    have hall : ∀ p ∈ (strings.splitChars ' ' conf.PreRunScript.data).1
        :: (strings.splitChars ' ' conf.PreRunScript.data).2, p ≠ [] := by
      intro p hp hnil
      refine hne (String.mk p) ?_ (by rw [hnil])
      rcases List.mem_cons.mp hp with rfl | hp
      · simp
      · exact List.mem_cons_of_mem _ (List.mem_map.mpr ⟨p, hp, rfl⟩)
    rw [List.filter_eq_self.mpr (fun p hp => by simpa using hall p hp)]
    rfl

/-- C9, as amended, at a concrete input: `make build` runs `make` with the
argument `build` in the source root. -/
theorem preRun_splits_on_spaces_witness :
    ∃ name args reply,
      (preRun quietWorld false ⟨[], "make build", "publish"⟩ "/work/site" ()).trace
        = [⟨.Exec name "/work/site" args, reply⟩] ∧
      name :: args = strings.Split "make build" ' ' ∧
      strings.Join (name :: args) " " = "make build" ∧
      (∀ a ∈ name :: args, ' ' ∉ a.data) ∧
      ((∀ c ∈ "make build".data, isSpace c = true → c = ' ') →
        (∀ a ∈ name :: args, a ≠ "") → name :: args = specFields "make build") :=
  preRun_splits_on_spaces quietWorld ⟨[], "make build", "publish"⟩ "/work/site" () (by decide)

/-- C9, a counterexample. With two spaces between its words the command
`make  build` runs `make` with an empty first argument, where its
whitespace-separated words are `make` and `build`; a tab does not separate the
executable from its argument. -/
theorem preRun_whitespace_counterexample :
    (preRun quietWorld false ⟨[], "make  build", "publish"⟩ "/work/site" ()).trace
      = [⟨.Exec "make" "/work/site" ["", "build"], none⟩] ∧
    specFields "make  build" = ["make", "build"] ∧
    (preRun quietWorld false ⟨[], "make\tbuild", "publish"⟩ "/work/site" ()).trace
      = [⟨.Exec "make\tbuild" "/work/site" [], none⟩] ∧
    specFields "make\tbuild" = ["make", "build"] := by
  refine ⟨by decide, by decide, by decide, by decide⟩

/-- The calls of the removal loop: one removal for each entry that is not the
`.git` directory, in order, up to the first that fails; all of them when the
loop succeeds. -/
theorem removeItems_trace (w : World σ) (root : String) (dir : List FileInfo) (s : σ) :
    (∃ n, (removeItems w root dir s).trace.map Event.action
      = ((dir.filter (fun f => !isGitDir f)).map
          (fun f => Action.RemoveAll (filepath.Join [root, f.Name]))).take n) ∧
    ((removeItems w root dir s).result = .ok () →
      (removeItems w root dir s).trace.map Event.action
        = (dir.filter (fun f => !isGitDir f)).map
            (fun f => Action.RemoveAll (filepath.Join [root, f.Name]))) := by
  induction dir generalizing s with
  | nil => exact ⟨⟨0, rfl⟩, fun _ => rfl⟩
  | cons f dir ih =>
    by_cases hg : f.Name = ".git" ∧ f.IsDir = true
    · have hf : isGitDir f = true := by simpa [isGitDir] using hg
      have hstep : removeItems w root (f :: dir) s = removeItems w root dir s := by
        simp only [removeItems, if_pos hg]
      rw [hstep, List.filter_cons]
      simpa [hf] using ih s
    · have hf : isGitDir f = false := by simpa [isGitDir] using hg
      rcases hr : w.perform s (.RemoveAll (filepath.Join [root, f.Name])) with ⟨reply, s1⟩
      cases reply with
      | some e =>
        have hrun : (removeItems w root (f :: dir) s).trace
            = [⟨.RemoveAll (filepath.Join [root, f.Name]), some e⟩] ∧
            (removeItems w root (f :: dir) s).result
              = .error (.wrap ("failed to remove " ++ f.Name) e) := by
          simp [removeItems, hg, Prog.bind, World.call, hr, fatal.ExitErr, Prog.fail]
        refine ⟨⟨1, ?_⟩, fun hok => ?_⟩
        · rw [hrun.1, List.filter_cons]
          simp [hf]
        · rw [hrun.2] at hok; cases hok
      | none =>
        have hrun : (removeItems w root (f :: dir) s).trace
            = ⟨.RemoveAll (filepath.Join [root, f.Name]), none⟩
              :: (removeItems w root dir s1).trace ∧
            (removeItems w root (f :: dir) s).result = (removeItems w root dir s1).result := by
          simp [removeItems, hg, Prog.bind, World.call, hr]
        obtain ⟨⟨n, hn⟩, hall⟩ := ih s1
        refine ⟨⟨n + 1, ?_⟩, fun hok => ?_⟩
        · rw [hrun.1, List.filter_cons]
          simp [hf, hn]
        · rw [hrun.2] at hok
          rw [hrun.1, List.filter_cons]
          simp [hf, hall hok]

/-- The names along the path of an entry of the target directory: those of the
cleaned root, then the name of the entry. -/
theorem pathElems_entry (root name : String)
    (h : isName name = true ∧ name ≠ ".." ∧ '/' ∉ name.data) :
    pathElems (filepath.Join [root, name]) = pathElems (filepath.Clean root) ++ [name] := by
  have hsplit : strings.Split name '/' = [name] := Split_of_not_mem name h.2.2
  have hno : ".." ∉ strings.Split name '/' := by
    rw [hsplit]; intro hm; exact h.2.1 (List.mem_singleton.mp hm).symm
  rw [pathElems_Join root name hno]
  congr 1
  rw [pathElems, hsplit, List.filter_cons, h.1]
  rfl

/-- Two entries of the target directory with the same path have the same name. -/
theorem Join_entry_inj (root a b : String)
    (ha : isName a = true ∧ a ≠ ".." ∧ '/' ∉ a.data)
    (hb : isName b = true ∧ b ≠ ".." ∧ '/' ∉ b.data)
    (h : filepath.Join [root, a] = filepath.Join [root, b]) : a = b := by
  have h1 := pathElems_entry root a ha
  rw [h, pathElems_entry root b hb] at h1
  simpa using (List.append_cancel_left h1).symm

/-- In a directory world, the listing a successful removal loop leaves: the
entries whose path is the path of no entry handed to removal. -/
theorem removeItems_dirWorld (root : String) (failing : String → Option Error)
    (dir cur : List FileInfo)
    (hok : (removeItems (dirWorld root failing) root dir cur).result = .ok ()) :
    (removeItems (dirWorld root failing) root dir cur).state
      = cur.filter (fun c => dir.all (fun f =>
          isGitDir f || decide (filepath.Join [root, c.Name] ≠ filepath.Join [root, f.Name]))) := by
  induction dir generalizing cur with
  | nil => simp [removeItems, Prog.pure]
  | cons f dir ih =>
    by_cases hg : f.Name = ".git" ∧ f.IsDir = true
    · have hf : isGitDir f = true := by simpa [isGitDir] using hg
      have hstep : removeItems (dirWorld root failing) root (f :: dir) cur
          = removeItems (dirWorld root failing) root dir cur := by
        simp only [removeItems, if_pos hg]
      rw [hstep] at hok ⊢
      rw [ih cur hok]
      simp [List.all_cons, hf]
    · have hf : isGitDir f = false := by simpa [isGitDir] using hg
      cases hfail : failing (filepath.Join [root, f.Name]) with
      | some e =>
        have : (removeItems (dirWorld root failing) root (f :: dir) cur).result
            = .error (.wrap ("failed to remove " ++ f.Name) e) := by
          simp [removeItems, hg, Prog.bind, World.call, dirWorld, hfail, fatal.ExitErr, Prog.fail]
        rw [this] at hok; cases hok
      | none =>
        have hrun : removeItems (dirWorld root failing) root (f :: dir) cur
            = ⟨(removeItems (dirWorld root failing) root dir
                  (cur.filter (fun c =>
                    decide (filepath.Join [root, c.Name] ≠ filepath.Join [root, f.Name])))).result,
               (removeItems (dirWorld root failing) root dir
                  (cur.filter (fun c =>
                    decide (filepath.Join [root, c.Name] ≠ filepath.Join [root, f.Name])))).state,
               ⟨.RemoveAll (filepath.Join [root, f.Name]), none⟩ ::
               (removeItems (dirWorld root failing) root dir
                  (cur.filter (fun c =>
                    decide (filepath.Join [root, c.Name] ≠ filepath.Join [root, f.Name])))).trace⟩ := by
          simp [removeItems, hg, Prog.bind, World.call, dirWorld, hfail]
        rw [hrun] at hok ⊢
        simp only at hok ⊢
        rw [ih _ hok, List.filter_filter]
        apply List.filter_congr
        intro c _
        simp [List.all_cons, hf, Bool.and_comm]

/-- C2. For every listing of the immediate children of the working-copy root
(entries named by single path elements, each name once), the EMPTY step hands
to removal only entries of the listing that are not the `.git` directory, so
never the `.git` directory; when the step succeeds it has handed every other
entry to removal, in order; and in a directory where removal removes what is
at the path, the children left after a successful step are exactly the `.git`
directory. -/
theorem emptyTargetRepo_keeps_git (w : World σ) (root : String) (s : σ) (dir : List FileInfo)
    (hread : w.readDir s root = .ok dir)
    (hnames : ∀ f ∈ dir, isName f.Name = true ∧ f.Name ≠ ".." ∧ '/' ∉ f.Name.data)
    (hnodup : (dir.map FileInfo.Name).Nodup) :
    (∀ ev ∈ (emptyTargetRepo w root s).trace, ∀ p, ev.action = .RemoveAll p →
      ∃ f ∈ dir, ¬ (f.Name = ".git" ∧ f.IsDir = true) ∧ p = filepath.Join [root, f.Name]) ∧
    ((⟨".git", true⟩ : FileInfo) ∈ dir →
      ∀ ev ∈ (emptyTargetRepo w root s).trace,
        ev.action ≠ .RemoveAll (filepath.Join [root, ".git"])) ∧
    ((emptyTargetRepo w root s).result = .ok () →
      (emptyTargetRepo w root s).trace.map Event.action
        = .ReadDir root :: (dir.filter (fun f => !isGitDir f)).map
            (fun f => Action.RemoveAll (filepath.Join [root, f.Name]))) ∧
    (∀ failing, (emptyTargetRepo (dirWorld root failing) root dir).result = .ok () →
      (emptyTargetRepo (dirWorld root failing) root dir).state = dir.filter isGitDir) := by
  have hrun : (emptyTargetRepo w root s).trace
      = ⟨.ReadDir root, none⟩ :: (removeItems w root dir s).trace ∧
      (emptyTargetRepo w root s).result = (removeItems w root dir s).result := by
    simp [emptyTargetRepo, Prog.bind, World.ReadDir, hread]
  obtain ⟨⟨n, hn⟩, hall⟩ := removeItems_trace w root dir s
  have hmem : ∀ ev ∈ (emptyTargetRepo w root s).trace, ∀ p, ev.action = .RemoveAll p →
      ∃ f ∈ dir, ¬ (f.Name = ".git" ∧ f.IsDir = true) ∧ p = filepath.Join [root, f.Name] := by
    intro ev hev p hp
    rw [hrun.1] at hev
    rcases List.mem_cons.mp hev with rfl | hev
    · cases hp
    · have : ev.action ∈ (removeItems w root dir s).trace.map Event.action :=
        List.mem_map.mpr ⟨ev, hev, rfl⟩
      rw [hn] at this
      obtain ⟨f, hf, hfa⟩ := List.mem_map.mp (List.mem_of_mem_take this)
      obtain ⟨hfd, hfg⟩ := List.mem_filter.mp hf
      rw [hp] at hfa
      have hnot : ¬ (f.Name = ".git" ∧ f.IsDir = true) := by
        intro hboth
        have : isGitDir f = true := by simpa [isGitDir] using hboth
        rw [this] at hfg
        exact absurd hfg (by decide)
      refine ⟨f, hfd, hnot, ?_⟩
      cases hfa; rfl
  refine ⟨hmem, ?_, ?_, ?_⟩
  · intro hgit ev hev hact
    obtain ⟨f, hf, hnot, hp⟩ := hmem ev hev _ hact
    have hname : (".git" : String) = f.Name :=
      Join_entry_inj root ".git" f.Name (hnames _ hgit) (hnames f hf) hp
    have hfeq : f = ⟨".git", true⟩ :=
      List.inj_on_of_nodup_map hnodup hf hgit hname.symm
    rw [hfeq] at hnot
    exact hnot ⟨rfl, rfl⟩
  · intro hok
    rw [hrun.2] at hok
    rw [hrun.1, List.map_cons, hall hok]
  · intro failing hok
    have hrunD : (emptyTargetRepo (dirWorld root failing) root dir)
        = ⟨(removeItems (dirWorld root failing) root dir dir).result,
           (removeItems (dirWorld root failing) root dir dir).state,
           ⟨.ReadDir root, none⟩ :: (removeItems (dirWorld root failing) root dir dir).trace⟩ := by
      simp [emptyTargetRepo, Prog.bind, World.ReadDir, dirWorld]
    rw [hrunD] at hok ⊢
    simp only at hok ⊢
    rw [removeItems_dirWorld root failing dir dir hok]
    apply List.filter_congr
    intro c hc
    by_cases hg : isGitDir c = true
    · rw [hg, List.all_eq_true]
      intro f hf
      by_cases hfg : isGitDir f = true
      · simp [hfg]
      · have hne : filepath.Join [root, c.Name] ≠ filepath.Join [root, f.Name] := by
          intro heq
          have hname := Join_entry_inj root c.Name f.Name (hnames c hc) (hnames f hf) heq
          have : c = f := List.inj_on_of_nodup_map hnodup hc hf hname
          rw [this] at hg
          exact hfg hg
        simp [hne]
    · have hg' : isGitDir c = false := by simpa using hg
      rw [hg']
      rw [List.all_eq_false]
      exact ⟨c, hc, by simp [hg']⟩

/-- C2, at a concrete input: a working copy holding `.git`, a file and a
directory. -/
theorem emptyTargetRepo_keeps_git_witness :
    (emptyTargetRepo (dirWorld "/repos/owner/site" (fun _ => none)) "/repos/owner/site"
        [⟨".git", true⟩, ⟨"index.html", false⟩, ⟨"css", true⟩]).trace.map Event.action
      = [.ReadDir "/repos/owner/site", .RemoveAll "/repos/owner/site/index.html",
         .RemoveAll "/repos/owner/site/css"] ∧
    (emptyTargetRepo (dirWorld "/repos/owner/site" (fun _ => none)) "/repos/owner/site"
        [⟨".git", true⟩, ⟨"index.html", false⟩, ⟨"css", true⟩]).state = [⟨".git", true⟩] :=
  ⟨(emptyTargetRepo_keeps_git (dirWorld "/repos/owner/site" (fun _ => none))
      "/repos/owner/site" [⟨".git", true⟩, ⟨"index.html", false⟩, ⟨"css", true⟩]
      [⟨".git", true⟩, ⟨"index.html", false⟩, ⟨"css", true⟩] (by decide) (by decide)
      (by decide)).2.2.1 (by decide),
   (emptyTargetRepo_keeps_git (dirWorld "/repos/owner/site" (fun _ => none))
      "/repos/owner/site" [⟨".git", true⟩, ⟨"index.html", false⟩, ⟨"css", true⟩]
      [⟨".git", true⟩, ⟨"index.html", false⟩, ⟨"css", true⟩] (by decide) (by decide)
      (by decide)).2.2.2 (fun _ => none) (by decide)⟩

end Steps

section GitTheorems

variable {σ : Type}

/-- C5. In `git.Open`, when open, worktree, clean and checkout succeed, a pull
that returns no error or `git.NoErrAlreadyUpToDate` makes `Open` return the
repository with a nil error, and `Open` returns an error only when the pull
returned another error value, which it wraps. -/
theorem Open_pull_already_up_to_date (w : World σ) (name branch path : String)
    (s0 s1 s2 s3 s4 : σ)
    (hOpen : w.perform s0 (.PlainOpen path) = (none, s1))
    (hWorktree : w.perform s1 (.Worktree path) = (none, s2))
    (hClean : w.perform s2 (.Clean path ⟨true⟩) = (none, s3))
    (hCheckout : w.perform s3 (.Checkout path ⟨"refs/heads/" ++ branch, true⟩) = (none, s4)) :
    (((w.perform s4 (.Pull path ⟨true, true⟩)).1 = none ∨
        (w.perform s4 (.Pull path ⟨true, true⟩)).1 = some Error.NoErrAlreadyUpToDate) ↔
      (git.Open w name branch path s0).result = .ok ⟨path⟩) ∧
    (∀ e, (git.Open w name branch path s0).result = .error e →
      ∃ cause, (w.perform s4 (.Pull path ⟨true, true⟩)).1 = some cause ∧
        cause ≠ Error.NoErrAlreadyUpToDate ∧
        e = errors.Wrapf cause ("failed to pull changes from remote for repo " ++ name)) := by
  rcases hp : w.perform s4 (.Pull path ⟨true, true⟩) with ⟨r, s5⟩
  cases r with
  | none =>
    simp [git.Open, Prog.bind, World.call, hOpen, hWorktree, hClean, hCheckout, hp, Prog.pure]
  | some e =>
    by_cases he : e = Error.NoErrAlreadyUpToDate
    · simp [git.Open, Prog.bind, World.call, hOpen, hWorktree, hClean, hCheckout, hp,
        Prog.pure, he]
    · simp [git.Open, Prog.bind, World.call, hOpen, hWorktree, hClean, hCheckout, hp,
        Prog.pure, Prog.fail, he, errors.Wrapf]

/-- C5, at a concrete input: in the quiet world the pull reports that the
branch is already up to date and `Open` returns the repository. -/
theorem Open_pull_already_up_to_date_witness :
    (git.Open quietWorld "owner/site" "gh-pages" "/repos/owner/site" ()).result
      = .ok ⟨"/repos/owner/site"⟩ :=
  (Open_pull_already_up_to_date quietWorld "owner/site" "gh-pages" "/repos/owner/site"
    () () () () () rfl rfl rfl rfl).1.mp (Or.inr rfl)

/-- The five outcomes of `git.Open`: the trace and the result, by the first
call that fails. -/
theorem Open_cases (w : World σ) (name branch path : String) (s : σ) :
    ∃ k : Nat, k ≤ 5 ∧
      (git.Open w name branch path s).trace.map Event.action
        = (git.openCalls branch path).take k ∧
      ((∀ ev ∈ (git.Open w name branch path s).trace, ev.failed = false) ∧ k = 5 ∧
          (git.Open w name branch path s).result = .ok ⟨path⟩ ∨
        ∃ (pre : List Event) (cause : Error),
          (git.Open w name branch path s).trace
            = pre ++ [⟨(git.openCalls branch path).getD (k - 1) (.PlainOpen path), some cause⟩] ∧
          pre.length + 1 = k ∧ (∀ ev ∈ pre, ev.failed = false) ∧
          (Event.mk ((git.openCalls branch path).getD (k - 1) (.PlainOpen path))
            (some cause)).failed = true ∧
          (git.Open w name branch path s).result
            = .error (.wrap ((git.openMessages name branch path).getD (k - 1) "") cause)) := by
  rcases h1 : w.perform s (.PlainOpen path) with ⟨r1, s1⟩
  cases r1 with
  | some e1 =>
    refine ⟨1, by omega, ?_, Or.inr ⟨[], e1, ?_, rfl, ?_, ?_, ?_⟩⟩ <;>
      simp [git.Open, Prog.bind, World.call, h1, Prog.fail, git.openCalls, git.openMessages,
        errors.Wrapf, Event.failed]
  | none =>
  rcases h2 : w.perform s1 (.Worktree path) with ⟨r2, s2⟩
  cases r2 with
  | some e2 =>
    refine ⟨2, by omega, ?_,
      Or.inr ⟨[⟨.PlainOpen path, none⟩], e2, ?_, rfl, ?_, ?_, ?_⟩⟩ <;>
      simp [git.Open, Prog.bind, World.call, h1, h2, Prog.fail, git.openCalls,
        git.openMessages, errors.Wrapf, Event.failed]
  | none =>
  rcases h3 : w.perform s2 (.Clean path ⟨true⟩) with ⟨r3, s3⟩
  cases r3 with
  | some e3 =>
    refine ⟨3, by omega, ?_,
      Or.inr ⟨[⟨.PlainOpen path, none⟩, ⟨.Worktree path, none⟩], e3, ?_, rfl, ?_, ?_, ?_⟩⟩ <;>
      simp [git.Open, Prog.bind, World.call, h1, h2, h3, Prog.fail, git.openCalls,
        git.openMessages, errors.Wrapf, Event.failed]
  | none =>
  rcases h4 : w.perform s3 (.Checkout path ⟨"refs/heads/" ++ branch, true⟩) with ⟨r4, s4⟩
  cases r4 with
  | some e4 =>
    refine ⟨4, by omega, ?_,
      Or.inr ⟨[⟨.PlainOpen path, none⟩, ⟨.Worktree path, none⟩, ⟨.Clean path ⟨true⟩, none⟩],
        e4, ?_, rfl, ?_, ?_, ?_⟩⟩ <;>
      simp [git.Open, Prog.bind, World.call, h1, h2, h3, h4, Prog.fail, git.openCalls,
        git.openMessages, errors.Wrapf, Event.failed]
  | none =>
  rcases h5 : w.perform s4 (.Pull path ⟨true, true⟩) with ⟨r5, s5⟩
  cases r5 with
  | none =>
    refine ⟨5, by omega, ?_, Or.inl ⟨?_, rfl, ?_⟩⟩ <;>
      simp [git.Open, Prog.bind, World.call, h1, h2, h3, h4, h5, Prog.pure, git.openCalls,
        Event.failed]
  | some e5 =>
    by_cases he : e5 = Error.NoErrAlreadyUpToDate
    · refine ⟨5, by omega, ?_,
        Or.inl ⟨?_, rfl, ?_⟩⟩ <;>
        simp [git.Open, Prog.bind, World.call, h1, h2, h3, h4, h5, Prog.pure, git.openCalls,
          Event.failed, he]
    · refine ⟨5, by omega, ?_,
        Or.inr ⟨[⟨.PlainOpen path, none⟩, ⟨.Worktree path, none⟩, ⟨.Clean path ⟨true⟩, none⟩,
          ⟨.Checkout path ⟨"refs/heads/" ++ branch, true⟩, none⟩], e5, ?_, rfl, ?_, ?_, ?_⟩⟩ <;>
        simp [git.Open, Prog.bind, World.call, h1, h2, h3, h4, h5, Prog.fail, git.openCalls,
          git.openMessages, errors.Wrapf, Event.failed, he]

/-- In a trace whose calls before the last did not fail, a failed call is the
last one. -/
theorem failed_is_last (pre pre1 post : List Event) (ev last : Event)
    (hpre : ∀ e ∈ pre1, e.failed = false) (hev : ev.failed = true)
    (h : pre ++ ev :: post = pre1 ++ [last]) : post = [] ∧ pre = pre1 ∧ ev = last := by
  rcases List.append_eq_append_iff.mp h with ⟨a, ha, hb⟩ | ⟨c, hc, hd⟩
  · cases a with
    | nil => simp at hb; simp [hb, ha]
    | cons x a =>
      simp at hb
      have := hpre ev (by rw [ha, hb.1]; simp)
      simp [this] at hev
  · cases c with
    | nil => simp at hd; simp [hd, hc]
    | cons y c =>
      have := congrArg List.length hd
      simp at this

/-- C6, as amended. The open path of prepare, `git.Open`, calls open (the
repository and its worktree), clean including directories, forced checkout of
the target branch and forced single-branch pull, in that order. A call that
fails is the last call made, and `Open` then returns no repository but the
error of that call wrapped with the message of the step; an error is returned
only so; a repository is returned only after all the calls, none failed. Each
message holds the word of its step. The message of a failed worktree, clean,
checkout or pull names the target by its repository name; the message of a
failed open is `failed to open repo at path` followed by the local path, and
names the local path only. -/
theorem Open_steps_in_order (w : World σ) (name branch path : String) (s : σ) :
    ((git.Open w name branch path s).trace.map Event.action <+: git.openCalls branch path) ∧
    (∀ pre ev post, (git.Open w name branch path s).trace = pre ++ ev :: post →
      ev.failed = true →
      post = [] ∧ ∃ cause, ev.err = some cause ∧
        (git.Open w name branch path s).result
          = .error (.wrap ((git.openMessages name branch path).getD pre.length "") cause)) ∧
    (∀ e, (git.Open w name branch path s).result = .error e →
      ∃ ev ∈ (git.Open w name branch path s).trace, ev.failed = true) ∧
    (∀ repo, (git.Open w name branch path s).result = .ok repo →
      repo = ⟨path⟩ ∧
      (git.Open w name branch path s).trace.map Event.action = git.openCalls branch path ∧
      ∀ ev ∈ (git.Open w name branch path s).trace, ev.failed = false) ∧
    (∀ i, i < 5 →
      occursIn (git.openStepWords.getD i "") ((git.openMessages name branch path).getD i "") ∧
      (i = 0 → occursIn path ((git.openMessages name branch path).getD i "")) ∧
      (0 < i → occursIn name ((git.openMessages name branch path).getD i ""))) ∧
    (git.openMessages name branch path).getD 0 "" = "failed to open repo at path " ++ path := by
  obtain ⟨k, hk, htr, hcase⟩ := Open_cases w name branch path s
  refine ⟨?_, ?_, ?_, ?_, ?_, rfl⟩
  · rw [htr]; exact List.take_prefix _ _
  · intro pre ev post h hev
    rcases hcase with ⟨hall, _, _⟩ | ⟨pre1, cause, htrace, hlen, hpre, _, hres⟩
    · have := hall ev (by rw [h]; simp)
      simp [this] at hev
    · obtain ⟨hpost, hpre', hlast⟩ := failed_is_last pre pre1 post ev _ hpre hev (h ▸ htrace)
      refine ⟨hpost, cause, by rw [hlast], ?_⟩
      rw [hres, hpre']
      congr 3
      omega
  · intro e he
    rcases hcase with ⟨_, _, hres⟩ | ⟨pre1, cause, htrace, _, _, hfail, _⟩
    · rw [hres] at he; cases he
    · exact ⟨_, by rw [htrace]; simp, hfail⟩
  · intro repo hrepo
    rcases hcase with ⟨hall, hk5, hres⟩ | ⟨pre1, cause, _, _, _, _, hres⟩
    · rw [hres] at hrepo
      refine ⟨by cases hrepo; rfl, ?_, hall⟩
      rw [htr, hk5]; rfl
    · rw [hres] at hrepo; cases hrepo
  · intro i hi
    have happ : ∀ a b : String, (a ++ b).data = a.data ++ b.data := fun a b => rfl
    rcases i with _ | _ | _ | _ | _ | i
    · exact ⟨⟨"failed to ".data, (" repo at path " ++ path).data, rfl⟩,
        fun _ => ⟨"failed to open repo at path ".data, [], by simp [git.openMessages, happ]⟩,
        fun h => absurd h (by omega)⟩
    · exact ⟨⟨"failed to get ".data, (" for repo " ++ name).data, rfl⟩,
        fun h => absurd h (by omega),
        fun _ => ⟨"failed to get worktree for repo ".data, [],
          by simp [git.openMessages, happ]⟩⟩
    · exact ⟨⟨"failed to ".data, (" repo " ++ name).data, rfl⟩,
        fun h => absurd h (by omega),
        fun _ => ⟨"failed to clean repo ".data, [], by simp [git.openMessages, happ]⟩⟩
    · exact ⟨⟨"failed to ".data, (" branch " ++ branch ++ " in repo " ++ name).data, rfl⟩,
        fun h => absurd h (by omega),
        fun _ => ⟨("failed to checkout branch " ++ branch ++ " in repo ").data, [],
          by simp [git.openMessages, happ]⟩⟩
    · exact ⟨⟨"failed to ".data, (" changes from remote for repo " ++ name).data, rfl⟩,
        fun h => absurd h (by omega),
        fun _ => ⟨"failed to pull changes from remote for repo ".data, [],
          by simp [git.openMessages, happ]⟩⟩
    · omega

/-- C6, as amended, at a concrete input: when the clean fails, no call follows
it and `Open` returns the error of the clean wrapped with the message of the
step. -/
theorem Open_steps_in_order_witness :
    ([] : List Event) = [] ∧
    ∃ cause, (Event.mk (.Clean "/repos/owner/site" ⟨true⟩) (some (.msg "permission denied"))).err
        = some cause ∧
      (git.Open
          (scriptedWorld (fun a => if a = .Clean "/repos/owner/site" ⟨true⟩
            then some (.msg "permission denied") else none) .populated)
          "owner/site" "gh-pages" "/repos/owner/site" ()).result
        = .error (.wrap
            ((git.openMessages "owner/site" "gh-pages" "/repos/owner/site").getD 2 "") cause) :=
  (Open_steps_in_order
      (scriptedWorld (fun a => if a = .Clean "/repos/owner/site" ⟨true⟩
        then some (.msg "permission denied") else none) .populated)
      "owner/site" "gh-pages" "/repos/owner/site" ()).2.1
    [⟨.PlainOpen "/repos/owner/site", none⟩, ⟨.Worktree "/repos/owner/site", none⟩]
    ⟨.Clean "/repos/owner/site" ⟨true⟩, some (.msg "permission denied")⟩ []
    (by decide) (by decide)

/-- C6, a counterexample. When opening the repository `owner/site` at
`/tmp/wc` fails, the error `Open` returns reads `failed to open repo at path
/tmp/wc` followed by the cause: it names the failing step and the local path,
and the name of the target occurs nowhere in it. -/
theorem Open_names_path_counterexample :
    (git.Open
        (scriptedWorld (fun a => if a = .PlainOpen "/tmp/wc"
          then some (.msg "repository does not exist") else none) .populated)
        "owner/site" "gh-pages" "/tmp/wc" ()).result
      = .error (.wrap "failed to open repo at path /tmp/wc" (.msg "repository does not exist")) ∧
    (Error.wrap "failed to open repo at path /tmp/wc" (.msg "repository does not exist")).text
      = "failed to open repo at path /tmp/wc: repository does not exist" ∧
    ¬ occursIn "owner/site"
      (Error.wrap "failed to open repo at path /tmp/wc" (.msg "repository does not exist")).text := by
  refine ⟨by decide, by decide, ?_⟩
  unfold occursIn
  decide

/-- The calls of `git.Clone`: one clone. -/
theorem Clone_trace (w : World σ) (name branch path : String) (s : σ) :
    ∃ reply, (git.Clone w name branch path s).trace
      = [⟨.PlainClone path false
          ⟨"git@github.com:" ++ name ++ ".git", "refs/heads/" ++ branch, true⟩, reply⟩] := by
  refine ⟨(w.perform s (.PlainClone path false
    ⟨"git@github.com:" ++ name ++ ".git", "refs/heads/" ++ branch, true⟩)).1, ?_⟩
  unfold git.Clone
  cases hr : (w.perform s (.PlainClone path false
    ⟨"git@github.com:" ++ name ++ ".git", "refs/heads/" ++ branch, true⟩)).1 <;>
    simp [Prog.bind, World.call, hr, Prog.fail, Prog.pure]

/-- The calls of `setupTargetRepo` are those of `git.Clone` when
`util.FileOrDirExists` reports false and those of `git.Open` otherwise. -/
theorem setupTargetRepo_trace (w : World σ) (target : Target) (path : String) (s : σ) :
    (setupTargetRepo w target path s).trace
      = if util.FileOrDirExists (w.pathState s path) = false
        then (git.Clone w target.GithubRepo target.Branch path s).trace
        else (git.Open w target.GithubRepo target.Branch path s).trace := by
  unfold setupTargetRepo
  by_cases h : util.FileOrDirExists (w.pathState s path) = false
  · rw [if_pos h]
    cases hr : (git.Clone w target.GithubRepo target.Branch path s).result <;>
      simp [Prog.bind, World.pathStateOf, h, Prog.try_, hr, fatal.ExitErr, Prog.fail, Prog.pure]
  · rw [if_neg h]
    cases hr : (git.Open w target.GithubRepo target.Branch path s).result <;>
      simp [Prog.bind, World.pathStateOf, h, Prog.try_, hr, fatal.ExitErr, Prog.fail, Prog.pure]

/-- C3. When the target working copy is prepared, the clone path (`git.Clone`)
is taken if and only if the target path does not exist or exists but is empty,
the open path (`git.Open`) is taken in every other case, and exactly one of
the two is taken. -/
theorem setupTargetRepo_clone_iff (w : World σ) (target : Target) (path : String) (s : σ) :
    ((∃ ev ∈ (setupTargetRepo w target path s).trace, ∃ p b o, ev.action = .PlainClone p b o) ↔
      (w.pathState s path = .missing ∨ w.pathState s path = .empty)) ∧
    ((∃ ev ∈ (setupTargetRepo w target path s).trace, ∃ p, ev.action = .PlainOpen p) ↔
      ¬ (w.pathState s path = .missing ∨ w.pathState s path = .empty)) ∧
    ((w.pathState s path = .missing ∨ w.pathState s path = .empty) →
      (setupTargetRepo w target path s).trace
        = (git.Clone w target.GithubRepo target.Branch path s).trace) ∧
    (¬ (w.pathState s path = .missing ∨ w.pathState s path = .empty) →
      (setupTargetRepo w target path s).trace
        = (git.Open w target.GithubRepo target.Branch path s).trace) := by
  have htr := setupTargetRepo_trace w target path s
  obtain ⟨reply, hclone⟩ := Clone_trace w target.GithubRepo target.Branch path s
  obtain ⟨k, hk, hopen, hcase⟩ := Open_cases w target.GithubRepo target.Branch path s
  have hk1 : 1 ≤ k := by
    rcases hcase with ⟨_, h5, _⟩ | ⟨pre, cause, _, hlen, _⟩ <;> omega
  have hex : util.FileOrDirExists (w.pathState s path) = false ↔
      (w.pathState s path = .missing ∨ w.pathState s path = .empty) := by
    cases w.pathState s path <;> simp [util.FileOrDirExists]
  have hopenMem : ∀ ev ∈ (git.Open w target.GithubRepo target.Branch path s).trace,
      ev.action ∈ git.openCalls target.Branch path := by
    intro ev hev
    have : ev.action ∈ (git.Open w target.GithubRepo target.Branch path s).trace.map
        Event.action := List.mem_map.mpr ⟨ev, hev, rfl⟩
    rw [hopen] at this
    exact List.mem_of_mem_take this
  have hopenFirst : ∃ ev ∈ (git.Open w target.GithubRepo target.Branch path s).trace,
      ev.action = .PlainOpen path := by
    have : Action.PlainOpen path ∈ (git.Open w target.GithubRepo target.Branch path s).trace.map
        Event.action := by
      rw [hopen]
      obtain ⟨j, rfl⟩ : ∃ j, k = j + 1 := ⟨k - 1, by omega⟩
      simp [git.openCalls]
    obtain ⟨ev, hev, ha⟩ := List.mem_map.mp this
    exact ⟨ev, hev, ha⟩
  by_cases h : w.pathState s path = .missing ∨ w.pathState s path = .empty
  · rw [if_pos (hex.mpr h)] at htr
    refine ⟨⟨fun _ => h, fun _ => ?_⟩, ⟨fun hx => ?_, fun hx => absurd h hx⟩,
      fun _ => htr, fun hx => absurd h hx⟩
    · rw [htr, hclone]
      exact ⟨_, List.mem_singleton.mpr rfl, _, _, _, rfl⟩
    · rw [htr, hclone] at hx
      obtain ⟨ev, hev, p, hp⟩ := hx
      rw [List.mem_singleton.mp hev] at hp
      cases hp
  · rw [if_neg (fun x => h (hex.mp x))] at htr
    refine ⟨⟨fun hx => ?_, fun hx => absurd hx h⟩, ⟨fun _ => h, fun _ => ?_⟩,
      fun hx => absurd hx h, fun _ => htr⟩
    · rw [htr] at hx
      obtain ⟨ev, hev, p, b, o, hp⟩ := hx
      have hm := hopenMem ev hev
      rw [hp] at hm
      simp [git.openCalls] at hm
    · rw [htr]
      obtain ⟨ev, hev, ha⟩ := hopenFirst
      exact ⟨ev, hev, path, ha⟩

/-- C3, at concrete inputs: a missing target path is cloned, one that holds
something is opened. -/
theorem setupTargetRepo_clone_iff_witness :
    (∃ ev ∈ (setupTargetRepo (scriptedWorld (fun _ => none) .missing)
        ⟨"owner/site", "gh-pages", ""⟩ "/repos/owner/site" ()).trace,
      ∃ p b o, ev.action = .PlainClone p b o) ∧
    (∃ ev ∈ (setupTargetRepo (scriptedWorld (fun _ => none) .populated)
        ⟨"owner/site", "gh-pages", ""⟩ "/repos/owner/site" ()).trace,
      ∃ p, ev.action = .PlainOpen p) :=
  ⟨(setupTargetRepo_clone_iff (scriptedWorld (fun _ => none) .missing)
      ⟨"owner/site", "gh-pages", ""⟩ "/repos/owner/site" ()).1.mpr (Or.inl rfl),
   (setupTargetRepo_clone_iff (scriptedWorld (fun _ => none) .populated)
      ⟨"owner/site", "gh-pages", ""⟩ "/repos/owner/site" ()).2.1.mpr (by decide)⟩

/-- The calls of `git.Clone` are orderly within PREPARE. -/
theorem Clone_orderly (w : World σ) (name branch path : String) (s : σ) :
    (git.Clone w name branch path s).orderly 0 0 := by
  unfold git.Clone
  refine orderly_call w _ _ _ 0 0 ?_ ?_ le_rfl (fun s1 => orderly_pure 0 0 _ s1) s
  · simp
  · rfl

/-- The pull of `git.Open`, the last of its calls, is orderly within PREPARE. -/
theorem Open_pull_orderly (w : World σ) (name path : String) (s : σ) :
    (((w.call (.Pull path ⟨true, true⟩)).bind fun err =>
      match err with
      | some e =>
        if e ≠ Error.NoErrAlreadyUpToDate then
          Prog.fail (errors.Wrapf e ("failed to pull changes from remote for repo " ++ name))
        else Prog.pure (⟨path⟩ : Repository)
      | none => Prog.pure ⟨path⟩) s).orderly 0 0 := by
  rcases hr : w.perform s (.Pull path ⟨true, true⟩) with ⟨reply, s1⟩
  cases reply with
  | none =>
    refine ⟨Or.inl ⟨⟨path⟩, ?_, ?_⟩, ?_, ?_⟩ <;>
      simp [Prog.bind, World.call, hr, Prog.pure, Event.failed, Event.index, Action.step,
        Step.index]
  | some e =>
    by_cases he : e = Error.NoErrAlreadyUpToDate
    · refine ⟨Or.inl ⟨⟨path⟩, ?_, ?_⟩, ?_, ?_⟩ <;>
        simp [Prog.bind, World.call, hr, Prog.pure, Event.failed, Event.index, Action.step,
          Step.index, he]
    · refine ⟨Or.inr ⟨errors.Wrapf e ("failed to pull changes from remote for repo " ++ name),
        [], ⟨.Pull path ⟨true, true⟩, some e⟩, ?_, ?_, ?_, ?_⟩, ?_, ?_⟩ <;>
        simp [Prog.bind, World.call, hr, Prog.fail, Event.failed, Event.index, Action.step,
          Step.index, he]

/-- The calls of `git.Open` are orderly within PREPARE. -/
theorem Open_orderly (w : World σ) (name branch path : String) (s : σ) :
    (git.Open w name branch path s).orderly 0 0 := by
  unfold git.Open
  refine orderly_call w _ _ _ 0 0 ?_ ?_ le_rfl (fun s1 => ?_) s
  · simp
  · rfl
  refine orderly_call w _ _ _ 0 0 ?_ ?_ le_rfl (fun s2 => ?_) s1
  · simp
  · rfl
  refine orderly_call w _ _ _ 0 0 ?_ ?_ le_rfl (fun s3 => ?_) s2
  · simp
  · rfl
  refine orderly_call w _ _ _ 0 0 ?_ ?_ le_rfl (fun s4 => ?_) s3
  · simp
  · rfl
  exact Open_pull_orderly w name path s4

end GitTheorems

section Pipeline

variable {σ : Type}

theorem setupTargetRepo_orderly (w : World σ) (target : Target) (path : String) (s : σ) :
    (setupTargetRepo w target path s).orderly 0 0 := by
  have hbind : ∀ f : PathState → Prog σ Repository,
      ((w.pathStateOf path).bind f) s = f (w.pathState s path) s := by
    intro f
    simp [Prog.bind, World.pathStateOf]
  unfold setupTargetRepo
  rw [hbind]
  by_cases h : util.FileOrDirExists (w.pathState s path) = false
  · rw [if_pos h]
    simp only [fatal.ExitErr]
    exact orderly_try 0 0 _
      (fun err => .wrap ("Failed to clone repo " ++ target.GithubRepo ++ " to " ++ path) err) _ s
      (fun _ => rfl) (fun _ => rfl) (Clone_orderly w _ _ _ s)
  · rw [if_neg h]
    simp only [fatal.ExitErr]
    exact orderly_try 0 0 _
      (fun err => .wrap ("Failed to open repo " ++ target.GithubRepo ++ " at path " ++ path) err)
      _ s (fun _ => rfl) (fun _ => rfl) (Open_orderly w _ _ _ s)

theorem removeItems_orderly (w : World σ) (root : String) (dir : List FileInfo) (s : σ) :
    (removeItems w root dir s).orderly 1 1 := by
  induction dir generalizing s with
  | nil => exact orderly_pure 1 1 () s
  | cons f dir ih =>
    by_cases hg : f.Name = ".git" ∧ f.IsDir = true
    · have hstep : removeItems w root (f :: dir) s = removeItems w root dir s := by
        simp only [removeItems, if_pos hg]
      rw [hstep]
      exact ih s
    · have hstep : removeItems w root (f :: dir) s
          = ((w.call (.RemoveAll (filepath.Join [root, f.Name]))).bind fun err =>
              match err with
              | some e => Prog.fail (.wrap ("failed to remove " ++ f.Name) e)
              | none => removeItems w root dir) s := by
        simp only [removeItems, if_neg hg, fatal.ExitErr]
      rw [hstep]
      refine orderly_call w _ _ _ 1 1 ?_ ?_ le_rfl (fun s1 => ih s1) s
      · simp
      · rfl

theorem emptyTargetRepo_orderly (w : World σ) (root : String) (s : σ) :
    (emptyTargetRepo w root s).orderly 1 1 := by
  cases hread : w.readDir s root with
  | error e =>
    have hrun : emptyTargetRepo w root s
        = ⟨.error (.wrap "failed to read items in target dir" e), s,
           [⟨.ReadDir root, some e⟩]⟩ := by
      simp [emptyTargetRepo, Prog.bind, World.ReadDir, hread, fatal.ExitErr, Prog.fail]
    rw [hrun]
    refine ⟨Or.inr ⟨_, [], ⟨.ReadDir root, some e⟩, rfl, rfl, by simp, rfl⟩, by simp, ?_⟩
    intro ev hev
    simp at hev
    subst hev
    simp [Event.index, Action.step, Step.index]
  | ok dir =>
    have hrun : emptyTargetRepo w root s
        = ⟨(removeItems w root dir s).result, (removeItems w root dir s).state,
           ⟨.ReadDir root, none⟩ :: (removeItems w root dir s).trace⟩ := by
      simp [emptyTargetRepo, Prog.bind, World.ReadDir, hread]
    rw [hrun]
    obtain ⟨hstop, hsort, hin⟩ := removeItems_orderly w root dir s
    have hev : (Event.mk (.ReadDir root) none).failed = false := rfl
    refine ⟨?_, ?_, ?_⟩
    · rcases hstop with ⟨b, hres, hall⟩ | ⟨e, pre, last, hres, htr, hpre, hlast⟩
      · refine Or.inl ⟨b, hres, ?_⟩
        intro ev h
        rcases List.mem_cons.mp h with rfl | h
        · exact hev
        · exact hall ev h
      · refine Or.inr ⟨e, ⟨.ReadDir root, none⟩ :: pre, last, hres, ?_, ?_, hlast⟩
        · show ⟨.ReadDir root, none⟩ :: (removeItems w root dir s).trace = _
          rw [htr]; rfl
        · intro ev h
          rcases List.mem_cons.mp h with rfl | h
          · exact hev
          · exact hpre ev h
    · show (List.map Event.index (⟨.ReadDir root, none⟩ :: (removeItems w root dir s).trace)).Pairwise _
      rw [List.map_cons, List.pairwise_cons]
      refine ⟨?_, hsort⟩
      intro y hy
      obtain ⟨ey, hey, rfl⟩ := List.mem_map.mp hy
      exact (hin ey hey).1
    · intro ev h
      rcases List.mem_cons.mp h with rfl | h
      · simp [Event.index, Action.step, Step.index]
      · exact hin ev h

theorem preRun_orderly (w : World σ) (skip : Bool) (conf : Config) (src : String) (s : σ) :
    (preRun w skip conf src s).orderly 2 2 := by
  unfold preRun
  by_cases h : skip = false ∧ conf.PreRunScript ≠ ""
  · rw [if_pos h]
    simp only [strings.Split, fatal.ExitErr]
    refine orderly_call w _ _ _ 2 2 ?_ ?_ le_rfl (fun s1 => orderly_pure 2 2 () s1) s
    · simp
    · rfl
  · rw [if_neg h]
    exact orderly_pure 2 2 () s

theorem globFiles_orderly (w : World σ) (patterns files : List String) (s : σ) :
    (globFiles w patterns files s).orderly 3 3 := by
  induction patterns generalizing files s with
  | nil => exact orderly_pure 3 3 files s
  | cons file rest ih =>
    cases hg : filepath.Glob (w.fs s) file with
    | error e =>
      have hrun : globFiles w (file :: rest) files s
          = ⟨.error (.wrap "failed to parse files listed in config" e), s,
             [⟨.Glob file, some e⟩]⟩ := by
        simp [globFiles, Prog.bind, World.Glob, hg, fatal.ExitErr, Prog.fail]
      rw [hrun]
      refine ⟨Or.inr ⟨_, [], ⟨.Glob file, some e⟩, rfl, rfl, by simp, rfl⟩, by simp, ?_⟩
      intro ev hev
      simp at hev
      subst hev
      simp [Event.index, Action.step, Step.index]
    | ok found =>
      have hrun : globFiles w (file :: rest) files s
          = ⟨(globFiles w rest (files ++ found) s).result,
             (globFiles w rest (files ++ found) s).state,
             ⟨.Glob file, none⟩ :: (globFiles w rest (files ++ found) s).trace⟩ := by
        simp [globFiles, Prog.bind, World.Glob, hg]
      rw [hrun]
      obtain ⟨hstop, hsort, hin⟩ := ih (files ++ found) s
      have hev : (Event.mk (.Glob file) none).failed = false := rfl
      refine ⟨?_, ?_, ?_⟩
      · rcases hstop with ⟨b, hres, hall⟩ | ⟨e, pre, last, hres, htr, hpre, hlast⟩
        · refine Or.inl ⟨b, hres, ?_⟩
          intro ev h
          rcases List.mem_cons.mp h with rfl | h
          · exact hev
          · exact hall ev h
        · refine Or.inr ⟨e, ⟨.Glob file, none⟩ :: pre, last, hres, ?_, ?_, hlast⟩
          · show ⟨.Glob file, none⟩ :: (globFiles w rest (files ++ found) s).trace = _
            rw [htr]; rfl
          · intro ev h
            rcases List.mem_cons.mp h with rfl | h
            · exact hev
            · exact hpre ev h
      · show (List.map Event.index
          (⟨.Glob file, none⟩ :: (globFiles w rest (files ++ found) s).trace)).Pairwise _
        rw [List.map_cons, List.pairwise_cons]
        refine ⟨?_, hsort⟩
        intro y hy
        obtain ⟨ey, hey, rfl⟩ := List.mem_map.mp hy
        exact (hin ey hey).1
      · intro ev h
        rcases List.mem_cons.mp h with rfl | h
        · simp [Event.index, Action.step, Step.index]
        · exact hin ev h

theorem copyFiles_orderly (w : World σ) (src root : String) (files : List String) (s : σ) :
    (copyFiles w src root files s).orderly 3 3 := by
  induction files generalizing s with
  | nil => exact orderly_pure 3 3 () s
  | cons file rest ih =>
    simp only [copyFiles, fatal.ExitErr]
    refine orderly_call w _ _ _ 3 3 ?_ ?_ le_rfl (fun s1 => ih s1) s
    · simp
    · rfl

theorem writeCNAME_orderly (w : World σ) (target : Target) (root : String) (s : σ) :
    (writeCNAME w target root s).orderly 4 4 := by
  unfold writeCNAME
  by_cases h : target.CustomURL ≠ ""
  · rw [if_pos h]
    simp only [fatal.ExitErr]
    refine orderly_call w _ _ _ 4 4 ?_ ?_ le_rfl (fun s1 => orderly_pure 4 4 () s1) s
    · simp
    · rfl
  · rw [if_neg h]
    exact orderly_pure 4 4 () s

theorem commitFiles_orderly (w : World σ) (conf : Config) (target : Target) (root : String)
    (repo : Repository) (s : σ) : (commitFiles w conf target root repo s).orderly 5 7 := by
  simp only [commitFiles, fatal.ExitErr]
  refine orderly_call w _ _ _ 5 7 ?_ ?_ (by omega) (fun s1 => ?_) s
  · simp
  · rfl
  refine orderly_widen 6 7 5 7 _ ?_ (by omega) le_rfl
  refine orderly_call w _ _ _ 6 7 ?_ ?_ (by omega) (fun s2 => ?_) s1
  · simp
  · rfl
  refine orderly_widen 7 7 6 7 _ ?_ (by omega) le_rfl
  refine orderly_call w _ _ _ 7 7 ?_ ?_ le_rfl (fun s3 => orderly_pure 7 7 () s3) s2
  · simp
  · rfl

theorem publishFiles_orderly (w : World σ) (src root : String) (conf : Config)
    (target : Target) (repo : Repository) (s : σ) :
    (publishFiles w src root conf target repo s).orderly 3 7 := by
  unfold publishFiles
  refine orderly_bind 3 3 7 _ _ s (globFiles_orderly w _ _ s) (fun files s1 => ?_) le_rfl
    (by omega)
  refine orderly_bind 3 3 7 _ _ s1 (copyFiles_orderly w _ _ _ s1) (fun _ s2 => ?_) le_rfl
    (by omega)
  refine orderly_bind 3 4 7 _ _ s2
    (orderly_widen 4 4 3 4 _ (writeCNAME_orderly w _ _ s2) (by omega) le_rfl)
    (fun _ s3 => ?_) (by omega) (by omega)
  exact orderly_widen 5 7 4 7 _ (commitFiles_orderly w _ _ _ _ s3) (by omega) le_rfl

theorem main_orderly (w : World σ) (reposDir src : String) (skip : Bool) (conf : Config)
    (target : Target) (s : σ) : (main w reposDir src skip conf target s).orderly 0 7 := by
  unfold main
  refine orderly_bind 0 0 7 _ _ s (setupTargetRepo_orderly w _ _ s) (fun repo s1 => ?_) le_rfl
    (by omega)
  refine orderly_bind 0 1 7 _ _ s1
    (orderly_widen 1 1 0 1 _ (emptyTargetRepo_orderly w _ s1) (by omega) le_rfl)
    (fun _ s2 => ?_) (by omega) (by omega)
  refine orderly_bind 1 2 7 _ _ s2
    (orderly_widen 2 2 1 2 _ (preRun_orderly w _ _ _ s2) (by omega) le_rfl)
    (fun _ s3 => ?_) (by omega) (by omega)
  exact orderly_widen 3 7 2 7 _ (publishFiles_orderly w _ _ _ _ _ s3) (by omega) le_rfl

/-- The three calls of `commitFiles`, by the first that fails. -/
theorem commitFiles_ends (w : World σ) (conf : Config) (target : Target) (root : String)
    (repo : Repository) (s : σ) :
    (commitFiles w conf target root repo s).endsWithCommit conf target root := by
  refine ⟨[], by simp, Or.inr ⟨by simp, repo, ?_⟩⟩
  rcases h1 : w.perform s (.Add target.GithubRepo root ".") with ⟨r1, s1⟩
  cases r1 with
  | some e1 =>
    refine Or.inl ⟨e1, .wrap ("Failed to stage files in target repo " ++ root) e1, ?_, ?_⟩ <;>
      simp [commitFiles, Prog.bind, World.call, h1, fatal.ExitErr, Prog.fail]
  | none =>
  rcases h2 : w.perform s1 (.Commit target.GithubRepo conf.CommitMessage repo) with ⟨r2, s2⟩
  cases r2 with
  | some e2 =>
    refine Or.inr (Or.inl
      ⟨e2, .wrap ("Failed to commit files in target repo " ++ root) e2, ?_, ?_⟩) <;>
      simp [commitFiles, Prog.bind, World.call, h1, h2, fatal.ExitErr, Prog.fail]
  | none =>
  rcases h3 : w.perform s2 (.Push target.GithubRepo repo) with ⟨r3, s3⟩
  cases r3 with
  | some e3 =>
    refine Or.inr (Or.inr (Or.inl
      ⟨e3, .wrap ("Failed to push changes to GitHub for target repo " ++ root) e3, ?_, ?_⟩)) <;>
      simp [commitFiles, Prog.bind, World.call, h1, h2, h3, fatal.ExitErr, Prog.fail]
  | none =>
    refine Or.inr (Or.inr (Or.inr ⟨?_, ?_⟩)) <;>
      simp [commitFiles, Prog.bind, World.call, h1, h2, h3, Prog.pure]

/-- An orderly piece of the steps before VCS_ADD in front of a run that ends
with the commit gives a run that ends with the commit. -/
theorem ends_bind {α : Type} (conf : Config) (target : Target) (root : String) (lo : Nat)
    (p : Prog σ α) (f : α → Prog σ Unit) (s : σ) (hp : (p s).orderly lo 4)
    (hf : ∀ a s1, (f a s1).endsWithCommit conf target root) :
    ((p.bind f) s).endsWithCommit conf target root := by
  obtain ⟨hstop, _, hin⟩ := hp
  have hlt : ∀ ev ∈ (p s).trace, ev.index < 5 := fun ev hev => by
    have := (hin ev hev).2
    omega
  rcases hstop with ⟨a, hres, hall⟩ | ⟨e, pre, last, hres, htr, hpre, hlast⟩
  · rw [Prog.bind_ok p f s a hres]
    obtain ⟨pre, hpre, hcase⟩ := hf a (p s).state
    have hmem : ∀ ev ∈ (p s).trace ++ pre, ev.index < 5 := by
      intro ev hev
      rcases List.mem_append.mp hev with h | h
      · exact hlt ev h
      · exact hpre ev h
    refine ⟨(p s).trace ++ pre, hmem, ?_⟩
    rcases hcase with ⟨htr, e, he⟩ | ⟨hok, repo, hforms⟩
    · exact Or.inl ⟨by simp [htr], e, he⟩
    · refine Or.inr ⟨?_, repo, ?_⟩
      · intro ev hev
        rcases List.mem_append.mp hev with h | h
        · exact hall ev h
        · exact hok ev h
      · rcases hforms with ⟨e, e1, htr, hr⟩ | ⟨e, e1, htr, hr⟩ | ⟨e, e1, htr, hr⟩ | ⟨htr, hr⟩
        · exact Or.inl ⟨e, e1, by simp [htr], hr⟩
        · exact Or.inr (Or.inl ⟨e, e1, by simp [htr], hr⟩)
        · exact Or.inr (Or.inr (Or.inl ⟨e, e1, by simp [htr], hr⟩))
        · exact Or.inr (Or.inr (Or.inr ⟨by simp [htr], hr⟩))
  · rw [Prog.bind_error p f s e hres]
    exact ⟨(p s).trace, hlt, Or.inl ⟨rfl, e, rfl⟩⟩

theorem main_ends (w : World σ) (reposDir src : String) (skip : Bool) (conf : Config)
    (target : Target) (s : σ) :
    (main w reposDir src skip conf target s).endsWithCommit conf target
      (filepath.Join [reposDir, target.GithubRepo]) := by
  unfold main
  refine ends_bind conf target _ 0 _ _ s
    (orderly_widen 0 0 0 4 _ (setupTargetRepo_orderly w _ _ s) le_rfl (by omega))
    (fun repo s1 => ?_)
  refine ends_bind conf target _ 1 _ _ s1
    (orderly_widen 1 1 1 4 _ (emptyTargetRepo_orderly w _ s1) le_rfl (by omega))
    (fun _ s2 => ?_)
  refine ends_bind conf target _ 2 _ _ s2
    (orderly_widen 2 2 2 4 _ (preRun_orderly w _ _ _ s2) le_rfl (by omega))
    (fun _ s3 => ?_)
  unfold publishFiles
  refine ends_bind conf target _ 3 _ _ s3
    (orderly_widen 3 3 3 4 _ (globFiles_orderly w _ _ s3) le_rfl (by omega))
    (fun files s4 => ?_)
  refine ends_bind conf target _ 3 _ _ s4
    (orderly_widen 3 3 3 4 _ (copyFiles_orderly w _ _ _ s4) le_rfl (by omega))
    (fun _ s5 => ?_)
  refine ends_bind conf target _ 4 _ _ s5 (writeCNAME_orderly w _ _ s5) (fun _ s6 => ?_)
  exact commitFiles_ends w conf target _ repo s6

/-- The first call of the pipeline is a call of PREPARE. -/
theorem main_starts (w : World σ) (reposDir src : String) (skip : Bool) (conf : Config)
    (target : Target) (s : σ) :
    ∃ ev rest, (main w reposDir src skip conf target s).trace = ev :: rest ∧
      ev.action.step = .PREPARE := by
  have hsetup : ∃ ev rest,
      (setupTargetRepo w target (filepath.Join [reposDir, target.GithubRepo]) s).trace
        = ev :: rest ∧ ev.action.step = .PREPARE := by
    rw [setupTargetRepo_trace]
    by_cases h : util.FileOrDirExists
        (w.pathState s (filepath.Join [reposDir, target.GithubRepo])) = false
    · rw [if_pos h]
      obtain ⟨reply, hc⟩ := Clone_trace w target.GithubRepo target.Branch
        (filepath.Join [reposDir, target.GithubRepo]) s
      exact ⟨_, [], hc, rfl⟩
    · rw [if_neg h]
      obtain ⟨k, hk, hopen, hcase⟩ := Open_cases w target.GithubRepo target.Branch
        (filepath.Join [reposDir, target.GithubRepo]) s
      have hk1 : 1 ≤ k := by
        rcases hcase with ⟨_, h5, _⟩ | ⟨pre, cause, _, hlen, _⟩ <;> omega
      obtain ⟨j, rfl⟩ : ∃ j, k = j + 1 := ⟨k - 1, by omega⟩
      cases htr : (git.Open w target.GithubRepo target.Branch
        (filepath.Join [reposDir, target.GithubRepo]) s).trace with
      | nil => rw [htr] at hopen; simp [git.openCalls] at hopen
      | cons ev rest =>
        rw [htr] at hopen
        simp [git.openCalls] at hopen
        exact ⟨ev, rest, rfl, by rw [hopen.1]; rfl⟩
  obtain ⟨ev, rest, htr, hstep⟩ := hsetup
  unfold main
  cases hres : (setupTargetRepo w target (filepath.Join [reposDir, target.GithubRepo]) s).result with
  | error e =>
    rw [Prog.bind_error _ _ s e hres]
    exact ⟨ev, rest, htr, hstep⟩
  | ok repo =>
    rw [Prog.bind_ok _ _ s repo hres]
    exact ⟨ev, _, by rw [htr]; rfl, hstep⟩

/-- The calls of two pieces run one after the other: those of the first, then,
when it succeeded, those of the second. -/
theorem bind_trace {α β : Type} (p : Prog σ α) (f : α → Prog σ β) (s : σ) :
    (∃ e, (p s).result = .error e ∧ ((p.bind f) s).result = .error e ∧
      ((p.bind f) s).trace = (p s).trace) ∨
    (∃ a, (p s).result = .ok a ∧ ((p.bind f) s).result = (f a (p s).state).result ∧
      ((p.bind f) s).trace = (p s).trace ++ (f a (p s).state).trace) := by
  cases hres : (p s).result with
  | error e => exact Or.inl ⟨e, rfl, by rw [Prog.bind_error p f s e hres], by
      rw [Prog.bind_error p f s e hres]⟩
  | ok a => exact Or.inr ⟨a, rfl, by rw [Prog.bind_ok p f s a hres], by
      rw [Prog.bind_ok p f s a hres]⟩

/-- A call of two pieces run one after the other is a call of one of them. -/
theorem mem_bind_trace {α β : Type} (p : Prog σ α) (f : α → Prog σ β) (s : σ) (ev : Event)
    (h : ev ∈ ((p.bind f) s).trace) :
    ev ∈ (p s).trace ∨ ∃ a s1, ev ∈ (f a s1).trace := by
  rcases bind_trace p f s with ⟨e, _, _, htr⟩ | ⟨a, _, _, htr⟩
  · rw [htr] at h; exact Or.inl h
  · rw [htr] at h
    rcases List.mem_append.mp h with h | h
    · exact Or.inl h
    · exact Or.inr ⟨a, _, h⟩

/-- The first call of the EMPTY step lists the target directory. -/
theorem emptyTargetRepo_starts (w : World σ) (root : String) (s : σ) :
    ∃ ev rest, (emptyTargetRepo w root s).trace = ev :: rest ∧ ev.action = .ReadDir root := by
  cases hread : w.readDir s root with
  | error e =>
    exact ⟨⟨.ReadDir root, some e⟩, [], by
      simp [emptyTargetRepo, Prog.bind, World.ReadDir, hread, fatal.ExitErr, Prog.fail], rfl⟩
  | ok dir =>
    exact ⟨⟨.ReadDir root, none⟩, (removeItems w root dir s).trace, by
      simp [emptyTargetRepo, Prog.bind, World.ReadDir, hread], rfl⟩

/-- A successful run of the pipeline has listed the target directory. -/
theorem main_empties (w : World σ) (reposDir src : String) (skip : Bool) (conf : Config)
    (target : Target) (s : σ) :
    (main w reposDir src skip conf target s).result = .ok () →
      ∃ ev ∈ (main w reposDir src skip conf target s).trace,
        ev.action = .ReadDir (filepath.Join [reposDir, target.GithubRepo]) := by
  intro hok
  unfold main at hok ⊢
  rcases bind_trace (setupTargetRepo w target (filepath.Join [reposDir, target.GithubRepo]))
    (fun repo => (emptyTargetRepo w (filepath.Join [reposDir, target.GithubRepo])).bind fun _ =>
      (preRun w skip conf src).bind fun _ =>
      publishFiles w src (filepath.Join [reposDir, target.GithubRepo]) conf target repo) s
    with ⟨e, _, hres, _⟩ | ⟨repo, _, _, htr⟩
  · rw [hres] at hok; cases hok
  · rw [htr]
    rcases bind_trace (emptyTargetRepo w (filepath.Join [reposDir, target.GithubRepo]))
      (fun _ => (preRun w skip conf src).bind fun _ =>
        publishFiles w src (filepath.Join [reposDir, target.GithubRepo]) conf target repo)
      (setupTargetRepo w target (filepath.Join [reposDir, target.GithubRepo]) s).state
      with ⟨e, _, _, htr2⟩ | ⟨a, _, _, htr2⟩ <;>
    · rw [htr2]
      obtain ⟨ev, rest, hev, hact⟩ := emptyTargetRepo_starts w
        (filepath.Join [reposDir, target.GithubRepo])
        (setupTargetRepo w target (filepath.Join [reposDir, target.GithubRepo]) s).state
      exact ⟨ev, by rw [hev]; simp, hact⟩

theorem Prog.fail_bind {α β : Type} (e : Error) (f : α → Prog σ β) :
    (Prog.fail e : Prog σ α).bind f = Prog.fail e := by
  funext s
  simp [Prog.bind, Prog.fail]

/-- A call whose error stops the run, as a step of its own followed by the
rest. -/
theorem call_then (w : World σ) (a : Action) (msg : String) (k : Prog σ Unit) :
    ((w.call a).bind fun err =>
        match err with
        | some e => fatal.ExitErr e msg
        | none => Prog.pure ()).bind (fun _ => k)
      = (w.call a).bind fun err =>
        match err with
        | some e => fatal.ExitErr e msg
        | none => k := by
  rw [Prog.bind_assoc]
  apply Prog.bind_congr
  intro s err _
  cases err with
  | none => simp only [Prog.pure_bind]
  | some e => simp only [fatal.ExitErr, Prog.fail_bind]

/-- The repository `setupTargetRepo` returns is the one at the target path. -/
theorem setupTargetRepo_repo (w : World σ) (target : Target) (path : String) (s : σ)
    (repo : Repository) (h : (setupTargetRepo w target path s).result = .ok repo) :
    repo = ⟨path⟩ := by
  unfold setupTargetRepo at h
  by_cases hex : util.FileOrDirExists (w.pathState s path) = false
  · obtain ⟨reply, _⟩ := Clone_trace w target.GithubRepo target.Branch path s
    cases hr : (w.perform s (.PlainClone path false
      ⟨"git@github.com:" ++ target.GithubRepo ++ ".git", "refs/heads/" ++ target.Branch,
        true⟩)).1 with
    | some e =>
      simp [Prog.bind, World.pathStateOf, hex, Prog.try_, git.Clone, World.call, hr, Prog.fail,
        fatal.ExitErr] at h
    | none =>
      simp [Prog.bind, World.pathStateOf, hex, Prog.try_, git.Clone, World.call, hr, Prog.pure]
        at h
      exact h.symm
  · rcases Open_cases w target.GithubRepo target.Branch path s with
      ⟨k, _, _, ⟨_, _, hres⟩ | ⟨pre, cause, _, _, _, _, hres⟩⟩
    · simp [Prog.bind, World.pathStateOf, hex, Prog.try_, hres, Prog.pure] at h
      exact h.symm
    · simp [Prog.bind, World.pathStateOf, hex, Prog.try_, hres, Prog.fail, fatal.ExitErr] at h

/-- The pipeline of `main` is its eight steps run in the fixed order, each
after the success of the one before. -/
theorem main_eq_runSteps (w : World σ) (reposDir src : String) (skip : Bool) (conf : Config)
    (target : Target) :
    main w reposDir src skip conf target
      = specRun (specStep w reposDir src skip conf target) specOrder := by
  simp only [specOrder, specRun, specStep]
  rw [Prog.bind_pure, call_then, call_then]
  rw [Prog.bind_assoc (setupTargetRepo w target (filepath.Join [reposDir, target.GithubRepo]))]
  simp only [Prog.pure_bind]
  rw [Prog.bind_assoc (globFiles w conf.Files [])]
  unfold main publishFiles commitFiles
  apply Prog.bind_congr
  intro s repo hrepo
  rw [setupTargetRepo_repo w target _ s repo hrepo]

/-- C4. The pipeline of `main` is the steps PREPARE, EMPTY, PRE_RUN (a step
without a call when skipped or not configured), STAGE_FILES, WRITE_METADATA,
VCS_ADD, VCS_COMMIT, VCS_PUSH run in this fixed order, each only after the
success of the one before. For every outcome of the calls, the calls made
follow the order of the steps, starting with PREPARE, and the first call that
fails is the last call made: the run then fails, and a run fails only so. The
push is attempted only after every earlier call succeeded, the staging call
and the commit call among them, and nothing is called after the push, so a
failed push leaves the commit in place. The run succeeds exactly when the push
is made and succeeds, and has then emptied the target directory. -/
theorem main_steps_in_order (w : World σ) (reposDir src : String) (skip : Bool)
    (conf : Config) (target : Target) (s : σ) :
    main w reposDir src skip conf target
      = specRun (specStep w reposDir src skip conf target) specOrder ∧
    ((main w reposDir src skip conf target s).trace.map Event.index).Pairwise
      (fun a b => a ≤ b) ∧
    (∃ ev rest, (main w reposDir src skip conf target s).trace = ev :: rest ∧
      ev.action.step = .PREPARE) ∧
    (∀ pre ev post, (main w reposDir src skip conf target s).trace = pre ++ ev :: post →
      ev.failed = true →
      post = [] ∧ ∃ e, (main w reposDir src skip conf target s).result = .error e) ∧
    (∀ e, (main w reposDir src skip conf target s).result = .error e →
      ∃ pre ev, (main w reposDir src skip conf target s).trace = pre ++ [ev] ∧
        ev.failed = true ∧ ∀ x ∈ pre, x.failed = false) ∧
    (∀ ev ∈ (main w reposDir src skip conf target s).trace, ev.action.step = .VCS_PUSH →
      ∃ pre repo, (main w reposDir src skip conf target s).trace
          = pre ++ [⟨.Add target.GithubRepo (filepath.Join [reposDir, target.GithubRepo]) ".",
                      none⟩,
                    ⟨.Commit target.GithubRepo conf.CommitMessage repo, none⟩, ev] ∧
        ∀ x ∈ pre, x.failed = false ∧ x.index < 5) ∧
    ((main w reposDir src skip conf target s).result = .ok () ↔
      ∃ ev ∈ (main w reposDir src skip conf target s).trace,
        ev.action.step = .VCS_PUSH ∧ ev.failed = false) ∧
    ((main w reposDir src skip conf target s).result = .ok () →
      ∃ ev ∈ (main w reposDir src skip conf target s).trace,
        ev.action = .ReadDir (filepath.Join [reposDir, target.GithubRepo])) := by
  obtain ⟨hstop, hsort, _⟩ := main_orderly w reposDir src skip conf target s
  obtain ⟨pre0, hpre0, hends⟩ := main_ends w reposDir src skip conf target s
  have hnot5 : ∀ ev ∈ pre0, ev.action.step ≠ .VCS_PUSH := by
    intro ev hev hstep
    have := hpre0 ev hev
    simp [Event.index, hstep, Step.index] at this
  refine ⟨main_eq_runSteps w reposDir src skip conf target, hsort,
    main_starts w reposDir src skip conf target s, ?_, ?_, ?_, ?_,
    main_empties w reposDir src skip conf target s⟩
  · intro pre ev post htr hev
    rcases hstop with ⟨a, _, hall⟩ | ⟨e, pre1, last, hres, htr1, hpre1, _⟩
    · have := hall ev (by rw [htr]; simp)
      rw [this] at hev
      cases hev
    · exact ⟨(failed_is_last pre pre1 post ev last hpre1 hev (htr ▸ htr1)).1, e, hres⟩
  · intro e he
    rcases hstop with ⟨a, hres, _⟩ | ⟨e1, pre1, last, _, htr1, hpre1, hlast⟩
    · rw [hres] at he; cases he
    · exact ⟨pre1, last, htr1, hlast, hpre1⟩
  · intro ev hev hstep
    rcases hends with ⟨htr, _⟩ | ⟨hok, repo, hforms⟩
    · rw [htr] at hev
      exact absurd hstep (hnot5 ev hev)
    · rcases hforms with ⟨e, e1, htr, _⟩ | ⟨e, e1, htr, _⟩ | ⟨e, e1, htr, _⟩ | ⟨htr, _⟩
      · rw [htr] at hev
        rcases List.mem_append.mp hev with h | h
        · exact absurd hstep (hnot5 ev h)
        · simp at h; subst h; cases hstep
      · rw [htr] at hev
        rcases List.mem_append.mp hev with h | h
        · exact absurd hstep (hnot5 ev h)
        · simp at h
          rcases h with rfl | rfl <;> cases hstep
      · rw [htr] at hev
        rcases List.mem_append.mp hev with h | h
        · exact absurd hstep (hnot5 ev h)
        · simp at h
          rcases h with rfl | rfl | rfl
          · cases hstep
          · cases hstep
          · exact ⟨pre0, repo, htr, fun x hx => ⟨hok x hx, hpre0 x hx⟩⟩
      · rw [htr] at hev
        rcases List.mem_append.mp hev with h | h
        · exact absurd hstep (hnot5 ev h)
        · simp at h
          rcases h with rfl | rfl | rfl
          · cases hstep
          · cases hstep
          · exact ⟨pre0, repo, htr, fun x hx => ⟨hok x hx, hpre0 x hx⟩⟩
  · constructor
    · intro hres
      rcases hends with ⟨_, e, he⟩ | ⟨_, repo, hforms⟩
      · rw [he] at hres; cases hres
      · rcases hforms with ⟨e, e1, _, hr⟩ | ⟨e, e1, _, hr⟩ | ⟨e, e1, _, hr⟩ | ⟨htr, _⟩
        · rw [hr] at hres; cases hres
        · rw [hr] at hres; cases hres
        · rw [hr] at hres; cases hres
        · exact ⟨⟨.Push target.GithubRepo repo, none⟩, by rw [htr]; simp, rfl, rfl⟩
    · rintro ⟨ev, hev, hstep, hnf⟩
      rcases hends with ⟨htr, _⟩ | ⟨_, repo, hforms⟩
      · rw [htr] at hev
        exact absurd hstep (hnot5 ev hev)
      · rcases hforms with ⟨e, e1, htr, _⟩ | ⟨e, e1, htr, _⟩ | ⟨e, e1, htr, _⟩ | ⟨_, hr⟩
        · rw [htr] at hev
          rcases List.mem_append.mp hev with h | h
          · exact absurd hstep (hnot5 ev h)
          · simp at h; subst h; cases hstep
        · rw [htr] at hev
          rcases List.mem_append.mp hev with h | h
          · exact absurd hstep (hnot5 ev h)
          · simp at h
            rcases h with rfl | rfl <;> cases hstep
        · rw [htr] at hev
          rcases List.mem_append.mp hev with h | h
          · exact absurd hstep (hnot5 ev h)
          · simp at h
            rcases h with rfl | rfl | rfl
            · cases hstep
            · cases hstep
            · simp [Event.failed] at hnf
        · exact hr

/-- C4, at a concrete input: when the push fails after a successful commit, the
run ends with the successful staging and commit calls followed by the failed
push, after calls of the earlier steps none of which failed. -/
theorem main_steps_in_order_witness :
    ∃ pre repo,
      (main (scriptedWorld (fun a => if a = .Push "owner/site" ⟨"/repos/owner/site"⟩
            then some (.msg "remote rejected") else none) .populated)
          "/repos" "/work/site" false ⟨["dist/*", "README.md"], "make build", "publish"⟩
          ⟨"owner/site", "gh-pages", "example.com"⟩ ()).trace
        = pre ++ [⟨.Add "owner/site" (filepath.Join ["/repos", "owner/site"]) ".", none⟩,
                  ⟨.Commit "owner/site" "publish" repo, none⟩,
                  ⟨.Push "owner/site" ⟨"/repos/owner/site"⟩, some (.msg "remote rejected")⟩] ∧
      ∀ x ∈ pre, x.failed = false ∧ x.index < 5 :=
  (main_steps_in_order
    (scriptedWorld (fun a => if a = .Push "owner/site" ⟨"/repos/owner/site"⟩
      then some (.msg "remote rejected") else none) .populated)
    "/repos" "/work/site" false ⟨["dist/*", "README.md"], "make build", "publish"⟩
    ⟨"owner/site", "gh-pages", "example.com"⟩ ()).2.2.2.2.2.1
    ⟨.Push "owner/site" ⟨"/repos/owner/site"⟩, some (.msg "remote rejected")⟩
    (by decide) rfl

/-- The one call of the preRun step when a command is configured and the step
is not skipped. -/
theorem preRun_trace (w : World σ) (conf : Config) (src : String) (s : σ)
    (h : conf.PreRunScript ≠ "") :
    ∃ name args reply, (preRun w false conf src s).trace = [⟨.Exec name src args, reply⟩] := by
  refine ⟨String.mk (strings.splitChars ' ' conf.PreRunScript.data).1,
    (strings.splitChars ' ' conf.PreRunScript.data).2.map String.mk,
    (w.perform s (.Exec (String.mk (strings.splitChars ' ' conf.PreRunScript.data).1) src
      ((strings.splitChars ' ' conf.PreRunScript.data).2.map String.mk))).1, ?_⟩
  unfold preRun
  rw [if_pos ⟨rfl, h⟩]
  simp only [strings.Split]
  cases hr : (w.perform s (.Exec (String.mk (strings.splitChars ' ' conf.PreRunScript.data).1)
    src ((strings.splitChars ' ' conf.PreRunScript.data).2.map String.mk))).1 <;>
    simp [Prog.bind, World.call, hr, fatal.ExitErr, Prog.fail, Prog.pure]

/-- C8. The pre-run command is executed if and only if the skip flag is not set
and a non-empty command is configured. When the invocation requests skip, the
step makes no call and changes nothing, whatever command is configured: the
pipeline is the one that goes from emptying the target directly to staging
the files, and no call of a run belongs to the PRE_RUN step. -/
theorem preRun_iff_not_skipped (w : World σ) (skip : Bool) (conf : Config) (src : String)
    (s : σ) :
    ((∃ ev ∈ (preRun w skip conf src s).trace, ∃ name dir args, ev.action = .Exec name dir args) ↔
      (skip = false ∧ conf.PreRunScript ≠ "")) ∧
    preRun w true conf src = Prog.pure () ∧
    (∀ reposDir target,
      main w reposDir src true conf target
        = (setupTargetRepo w target (filepath.Join [reposDir, target.GithubRepo])).bind fun repo =>
          (emptyTargetRepo w (filepath.Join [reposDir, target.GithubRepo])).bind fun _ =>
          publishFiles w src (filepath.Join [reposDir, target.GithubRepo]) conf target repo) ∧
    (∀ reposDir target s1, ∀ ev ∈ (main w reposDir src true conf target s1).trace,
      ev.action.step ≠ .PRE_RUN) := by
  have hskip : preRun w true conf src = Prog.pure () := by
    funext s1
    simp [preRun]
  have hmain : ∀ reposDir target,
      main w reposDir src true conf target
        = (setupTargetRepo w target (filepath.Join [reposDir, target.GithubRepo])).bind fun repo =>
          (emptyTargetRepo w (filepath.Join [reposDir, target.GithubRepo])).bind fun _ =>
          publishFiles w src (filepath.Join [reposDir, target.GithubRepo]) conf target repo := by
    intro reposDir target
    unfold main
    rw [hskip]
    simp only [Prog.pure_bind]
  refine ⟨⟨?_, ?_⟩, hskip, hmain, ?_⟩
  · rintro ⟨ev, hev, _⟩
    by_contra hcond
    have : preRun w skip conf src s = Prog.pure () s := by
      unfold preRun
      rw [if_neg hcond]
    rw [this] at hev
    simp [Prog.pure] at hev
  · rintro ⟨hs, hc⟩
    subst hs
    obtain ⟨name, args, reply, htr⟩ := preRun_trace w conf src s hc
    exact ⟨⟨.Exec name src args, reply⟩, by rw [htr]; simp, name, src, args, rfl⟩
  · intro reposDir target s1 ev hev hstep
    rw [hmain] at hev
    have hidx : ev.index = 2 := by simp [Event.index, hstep, Step.index]
    rcases mem_bind_trace _ _ s1 ev hev with h | ⟨repo, s2, h⟩
    · have := (setupTargetRepo_orderly w target _ s1).2.2 ev h
      omega
    · rcases mem_bind_trace _ _ s2 ev h with h | ⟨_, s3, h⟩
      · have := (emptyTargetRepo_orderly w _ s2).2.2 ev h
        omega
      · have := (publishFiles_orderly w src _ conf target repo s3).2.2 ev h
        omega

/-- C8, at a concrete input: with the skip flag the configured command
`make build` is not run and the step does nothing. -/
theorem preRun_iff_not_skipped_witness :
    preRun quietWorld true ⟨[], "make build", "publish"⟩ "/work/site" = Prog.pure () ∧
    (main quietWorld "/repos" "/work/site" true ⟨[], "make build", "publish"⟩
        ⟨"owner/site", "gh-pages", ""⟩ ()).result = .ok () :=
  ⟨(preRun_iff_not_skipped quietWorld true ⟨[], "make build", "publish"⟩ "/work/site" ()).2.1,
   by decide⟩

end Pipeline

end Publisher
